import Mathlib

/-!
A verification development for the PLONK-style proving engine in
`src/plonky2/src/plonk/prover.rs`.

The development shallowly embeds the two proving orchestrators (`prove` and the
CUDA-accelerated `my_prove`), the permutation-argument builder
(`wires_permutation_partial_products_and_zs`), and the batched quotient
evaluator (`compute_quotient_polys`).  Helper functions whose sources live in
other files of the repository (partial-product helpers, batch inversion,
coset IFFT, the Fiat-Shamir challenger, the commitment oracle) are modelled
from the specification and are marked as such in their doc comments.

All definitions are executable, parameterised over an abstract field `F`.
-/

set_option autoImplicit false
set_option linter.unusedSectionVars false
set_option linter.unusedVariables false

section ListHelpers

variable {α : Type} {β : Type}

/-- Fuel-driven worker for `listChunks` (structural recursion, so that the
kernel can evaluate chunking on concrete inputs). -/
def listChunksAux (k : Nat) : Nat → List α → List (List α)
  | _, [] => []
  | 0, _ :: _ => []
  | fuel + 1, x :: xs =>
    if k = 0 then []
    else ((x :: xs).take k) :: listChunksAux k fuel ((x :: xs).drop k)

/-- Chunking of a list into consecutive chunks of size `k` (the last chunk may
be shorter), mirroring Rust's `slice::chunks` used throughout the prover. -/
def listChunks (k : Nat) (l : List α) : List (List α) :=
  listChunksAux k l.length l

theorem listChunksAux_fuel_ge (k : Nat) :
    ∀ (fuel1 fuel2 : Nat) (l : List α), l.length ≤ fuel1 → l.length ≤ fuel2 →
      listChunksAux k fuel1 l = listChunksAux k fuel2 l := by
  intro fuel1
  induction fuel1 with
  | zero =>
    intro fuel2 l h1 _
    have : l = [] := List.eq_nil_of_length_eq_zero (by omega)
    subst this
    cases fuel2 <;> rfl
  | succ f1 ih =>
    intro fuel2 l h1 h2
    cases l with
    | nil => cases fuel2 <;> rfl
    | cons x xs =>
      cases fuel2 with
      | zero => simp at h2
      | succ f2 =>
        simp only [listChunksAux]
        by_cases hk : k = 0
        · simp [hk]
        · rw [if_neg hk, if_neg hk]
          have hd : ((x :: xs).drop k).length ≤ f1 := by
            simp only [List.length_drop, List.length_cons]
            simp only [List.length_cons] at h1
            have hk1 : 1 ≤ k := Nat.pos_of_ne_zero hk
            omega
          have hd2 : ((x :: xs).drop k).length ≤ f2 := by
            simp only [List.length_drop, List.length_cons]
            simp only [List.length_cons] at h2
            have hk1 : 1 ≤ k := Nat.pos_of_ne_zero hk
            omega
          rw [ih _ _ hd hd2]

theorem listChunks_nil (k : Nat) : listChunks k ([] : List α) = [] := rfl

theorem listChunks_of_ne (k : Nat) (l : List α) (hl : l ≠ []) (hk : k ≠ 0) :
    listChunks k l = l.take k :: listChunks k (l.drop k) := by
  match l with
  | [] => exact absurd rfl hl
  | x :: xs =>
    rw [listChunks, listChunks]
    simp only [List.length_cons, listChunksAux, if_neg hk]
    congr 1
    apply listChunksAux_fuel_ge
    · simp only [List.length_drop, List.length_cons]
      have hk1 : 1 ≤ k := Nat.pos_of_ne_zero hk
      omega
    · exact Nat.le_refl _

/-- Concatenating the chunks gives back the original list. -/
theorem listChunks_flatten (k : Nat) (l : List α) (hk : k ≠ 0) :
    (listChunks k l).flatten = l := by
  by_cases hl : l = []
  · subst hl; simp [listChunks_nil]
  · rw [listChunks_of_ne k l hl hk]
    have ih := listChunks_flatten k (l.drop k) hk
    simp [ih]
termination_by l.length
decreasing_by
  have hk' : 0 < k := Nat.pos_of_ne_zero hk
  have hl' : 0 < l.length := List.length_pos.mpr hl
  simpa using Nat.sub_lt hl' hk'

/-- Length of each chunk is at most `k`. -/
theorem listChunks_mem_length_le (k : Nat) (l : List α) :
    ∀ c ∈ listChunks k l, c.length ≤ k := by
  intro c hc
  by_cases hl : l = []
  · subst hl; simp [listChunks_nil] at hc
  · by_cases hk : k = 0
    · subst hk
      cases l with
      | nil => simp [listChunks_nil] at hc
      | cons x xs => simp [listChunks, listChunksAux] at hc
    · rw [listChunks_of_ne k l hl hk] at hc
      rcases List.mem_cons.mp hc with hc | hc
      · subst hc; simp
      · exact listChunks_mem_length_le k (l.drop k) c hc
termination_by l.length
decreasing_by
  have hk' : 0 < k := Nat.pos_of_ne_zero hk
  have hl' : 0 < l.length := List.length_pos.mpr hl
  simpa using Nat.sub_lt hl' hk'

/-- Ceiling division, mirroring `ceil_div_usize` from the repository's util
module (modelled from the spec's chunk-count arithmetic). -/
def ceilDiv (a b : Nat) : Nat := (a + b - 1) / b

theorem ceilDiv_eq_succ (n k : Nat) (hk : k ≠ 0) (hn : n ≠ 0) :
    ceilDiv n k = (n - 1) / k + 1 := by
  have h : n + k - 1 = (n - 1) + k := by omega
  rw [ceilDiv, h, Nat.add_div_right _ (Nat.pos_of_ne_zero hk)]

theorem listChunks_length (k : Nat) (hk : k ≠ 0) (l : List α) :
    (listChunks k l).length = ceilDiv l.length k := by
  by_cases hl : l = []
  · subst hl
    rw [listChunks_nil, ceilDiv]
    simp only [List.length_nil, Nat.zero_add]
    exact (Nat.div_eq_of_lt (by omega)).symm
  · rw [listChunks_of_ne k l hl hk]
    have ih := listChunks_length k hk (l.drop k)
    have hk' : 0 < k := Nat.pos_of_ne_zero hk
    have hl' : 0 < l.length := List.length_pos.mpr hl
    simp only [List.length_cons, ih, List.length_drop]
    rw [ceilDiv_eq_succ l.length k hk (by omega)]
    rcases Nat.lt_or_ge l.length (k + 1) with hle | hle
    · have h1 : l.length - k = 0 := by omega
      have h2 : (l.length - 1) / k = 0 := Nat.div_eq_of_lt (by omega)
      have hc0 : ceilDiv 0 k = 0 := by
        rw [ceilDiv]; exact Nat.div_eq_of_lt (by omega)
      rw [h1, hc0, h2]
    · rw [ceilDiv_eq_succ (l.length - k) k hk (by omega)]
      have h3 : l.length - 1 = (l.length - k - 1) + k := by omega
      rw [h3, Nat.add_div_right _ hk']
termination_by l.length
decreasing_by
  have hk' : 0 < k := Nat.pos_of_ne_zero hk
  have hl' : 0 < l.length := List.length_pos.mpr hl
  simpa using Nat.sub_lt hl' hk'

end ListHelpers

section PolyHelpers

variable {F : Type} [Field F]

/-- Pointwise sum of two coefficient lists (the longer tail is kept). -/
def polyAdd : List F → List F → List F
  | [], q => q
  | p, [] => p
  | a :: p, b :: q => (a + b) :: polyAdd p q

/-- Scale every coefficient. -/
def polyScale (c : F) (p : List F) : List F := p.map (fun a => c * a)

/-- Multiply a coefficient list by the linear factor `X - a`. -/
def polyMulXminus (a : F) (p : List F) : List F :=
  polyAdd (0 :: p) (polyScale (-a) p)

theorem polyAdd_length (p q : List F) :
    (polyAdd p q).length = max p.length q.length := by
  induction p generalizing q with
  | nil => simp [polyAdd]
  | cons a p ih =>
    cases q with
    | nil => simp [polyAdd]
    | cons b q =>
      simp only [polyAdd, List.length_cons, ih]
      omega

theorem polyScale_length (c : F) (p : List F) :
    (polyScale c p).length = p.length := by simp [polyScale]

theorem polyMulXminus_length (a : F) (p : List F) :
    (polyMulXminus a p).length = p.length + 1 := by
  simp [polyMulXminus, polyAdd_length, polyScale_length]

/-- Numerator polynomial of the `i`-th Lagrange basis element: the product of
the linear factors `X - x_j` over all `j` different from `i`. -/
def lagrangeNumer (pts : List F) (i : Nat) : List F :=
  (pts.eraseIdx i).foldl (fun p a => polyMulXminus a p) [1]

/-- The `i`-th Lagrange basis polynomial for the point set `pts`. -/
def lagrangeBasis (pts : List F) (i : Nat) : List F :=
  let xi := pts.getD i 0
  let denom := ((pts.eraseIdx i).map (fun a => xi - a)).prod
  polyScale denom⁻¹ (lagrangeNumer pts i)

/-- Interpolation of the value list `vals` over the point set `pts`, returning
the coefficient list of the unique interpolating polynomial (padded to the
domain size).  Modelled from the spec: the quotient values are
"coset-inverse-FFT'd into coefficient form", i.e. interpolated over the
(shifted) evaluation domain; the FFT internals live outside `src/`. -/
def lagrangeInterp (pts vals : List F) : List F :=
  (List.range pts.length).foldl
    (fun acc i => polyAdd acc (polyScale (vals.getD i 0) (lagrangeBasis pts i)))
    (List.replicate pts.length 0)

theorem foldl_polyMulXminus_length (l : List F) (p : List F) :
    (l.foldl (fun q a => polyMulXminus a q) p).length = p.length + l.length := by
  induction l generalizing p with
  | nil => simp
  | cons a l ih => simp [ih, polyMulXminus_length]; omega

theorem lagrangeBasis_length (pts : List F) (i : Nat) :
    (lagrangeBasis pts i).length = (pts.eraseIdx i).length + 1 := by
  simp [lagrangeBasis, polyScale_length, lagrangeNumer, foldl_polyMulXminus_length]
  omega

theorem lagrangeInterp_length (pts vals : List F) :
    (lagrangeInterp pts vals).length = pts.length := by
  rw [lagrangeInterp]
  have key : ∀ (is : List Nat) (acc : List F), acc.length = pts.length →
      (∀ i ∈ is, i < pts.length) →
      (is.foldl
        (fun acc i => polyAdd acc (polyScale (vals.getD i 0) (lagrangeBasis pts i)))
        acc).length = pts.length := by
    intro is
    induction is with
    | nil => intro acc h _; simpa using h
    | cons i is ih =>
      intro acc h hmem
      apply ih
      · have hi : i < pts.length := hmem i (by simp)
        have he : (pts.eraseIdx i).length = pts.length - 1 :=
          List.length_eraseIdx_of_lt hi
        simp [polyAdd_length, polyScale_length, lagrangeBasis_length, h, he]
        omega
      · intro j hj; exact hmem j (by simp [hj])
  apply key
  · simp
  · intro i hi; simpa using hi

end PolyHelpers

section BatchInverse

variable {F : Type} [Field F]

/-- Batch inversion of a list of field elements.  Modelled from the spec:
"Batch-invert all denominators (single batch inversion amortizes the one
expensive field inverse over many values)" — exactly one field inversion (of
the total product) is performed, and each entry's inverse is recovered by
multiplying with the product of all the other entries.  The repository's
`Field::batch_multiplicative_inverse` lives outside `src/`. -/
def batch_multiplicative_inverse (xs : List F) : List F :=
  let t := (xs.prod)⁻¹
  (List.range xs.length).map
    (fun i => t * ((xs.take i).prod * (xs.drop (i + 1)).prod))

theorem batch_multiplicative_inverse_length (xs : List F) :
    (batch_multiplicative_inverse xs).length = xs.length := by
  simp [batch_multiplicative_inverse]

/-- On a list of nonzero elements, batch inversion agrees with elementwise
inversion. -/
theorem batch_multiplicative_inverse_eq_map_inv (xs : List F)
    (h : ∀ x ∈ xs, x ≠ 0) :
    batch_multiplicative_inverse xs = xs.map (fun x => x⁻¹) := by
  apply List.ext_getElem
  · simp [batch_multiplicative_inverse]
  · intro i h1 h2
    have hi : i < xs.length := by
      simpa [batch_multiplicative_inverse] using h1
    have hdrop : xs.drop i = xs[i] :: xs.drop (i + 1) :=
      List.drop_eq_getElem_cons hi
    have hsplit : xs.prod = (xs.take i).prod * (xs[i] * (xs.drop (i + 1)).prod) := by
      have h0 := List.prod_take_mul_prod_drop xs i
      rw [hdrop, List.prod_cons] at h0
      exact h0.symm
    have hA : (xs.take i).prod ≠ 0 := by
      apply List.prod_ne_zero
      intro hz
      exact h 0 (List.mem_of_mem_take hz) rfl
    have hB : (xs.drop (i + 1)).prod ≠ 0 := by
      apply List.prod_ne_zero
      intro hz
      exact h 0 (List.mem_of_mem_drop hz) rfl
    have hx : xs[i] ≠ 0 := h _ (xs.getElem_mem hi)
    simp only [batch_multiplicative_inverse, List.getElem_map, List.getElem_range]
    rw [hsplit]
    field_simp
    ring

end BatchInverse

section DataModel

variable (F : Type)

/-- Circuit configuration (`CircuitConfig` / `FriConfig` fields used by the
prover; the structs live outside `src/` and are modelled from the spec's
data-model section). -/
structure CircuitConfig where
  num_wires : Nat
  num_routed_wires : Nat
  num_challenges : Nat
  zero_knowledge : Bool
  rate_bits : Nat
  cap_height : Nat
  deriving DecidableEq

/-- The fields of `CommonCircuitData` read by the prover (modelled from the
spec: the circuit description exposes degree, challenge count, routed-wire
count, permutation constants, quotient-degree factor and domain parameters). -/
structure CommonData where
  config : CircuitConfig
  degree_bits : Nat
  quotient_degree_factor : Nat
  num_partial_products : Nat
  k_is : List F
  num_constants : Nat

/-- A committed batch of polynomials: the committed polynomial data together
with its short cap.  Modelled from the spec: the commitment oracle is an
opaque deterministic primitive exposing the committed batch and a cap. -/
structure Commitment where
  polys : List (List F)
  cap : List F
  deriving DecidableEq

/-- The fields of `ProverOnlyCircuitData` read by the prover. -/
structure ProverData where
  circuit_digest : List F
  subgroup : List F
  sigmas : List (List F)
  constants_sigmas_commitment : Commitment F

end DataModel

/-- Degree of the circuit: the size of the canonical subgroup, a power of
two. -/
def CommonData.degree {F : Type} (cd : CommonData F) : Nat := 2 ^ cd.degree_bits

/-- Target length of a quotient polynomial.  Modelled from the spec:
`quotient_degree_factor` many chunks of size `degree`
(`CommonCircuitData::quotient_degree` lives outside `src/`). -/
def CommonData.quotientDegree {F : Type} (cd : CommonData F) : Nat :=
  cd.quotient_degree_factor * cd.degree

section Builder

variable {F : Type} [Field F]

/-- Matrix-witness access `witness.get_wire(i, j)`: entry `i` of wire column
`j`. -/
def get_wire (w : List (List F)) (i j : Nat) : F := (w.getD j []).getD i 0

/-- Numerator terms of one row of the permutation argument, from
`prover.rs` lines 757-762: `wire_value + beta * (k_i * x) + gamma` for every
routed wire slot `j`. -/
def numeratorsRow (cd : CommonData F) (w : List (List F)) (beta gamma x : F)
    (i : Nat) : List F :=
  (List.range cd.config.num_routed_wires).map (fun j =>
    get_wire w i j + beta * (cd.k_is.getD j 0 * x) + gamma)

/-- Denominator terms of one row, from `prover.rs` lines 763-769:
`wire_value + beta * s_sigma + gamma` for every routed wire slot `j`. -/
def denominatorsRow (pd : ProverData F) (cd : CommonData F) (w : List (List F))
    (beta gamma : F) (i : Nat) : List F :=
  (List.range cd.config.num_routed_wires).map (fun j =>
    get_wire w i j + beta * ((pd.sigmas.getD i []).getD j 0) + gamma)

/-- Per-slot quotient values of one row, from `prover.rs` lines 770-774: each
numerator multiplied by the batch-inverted denominator paired with it. -/
def quotientValuesRow (pd : ProverData F) (cd : CommonData F)
    (w : List (List F)) (beta gamma x : F) (i : Nat) : List F :=
  List.zipWith (fun n dinv => n * dinv)
    (numeratorsRow cd w beta gamma x i)
    (batch_multiplicative_inverse (denominatorsRow pd cd w beta gamma i))

/-- Chunk products of the per-slot quotient values.  Modelled from the spec:
"fold consecutive ratios into chunks of a fixed chunk size (driven by
`quotient_degree_factor`) by product" (`quotient_chunk_products` lives in the
repository's util module, outside `src/`). -/
def quotient_chunk_products (vals : List F) (max_degree : Nat) : List F :=
  (listChunks max_degree vals).map List.prod

/-- One row of `all_quotient_chunk_products`, from `prover.rs` lines
752-777. -/
def rowChunkProducts (pd : ProverData F) (cd : CommonData F)
    (w : List (List F)) (beta gamma x : F) (i : Nat) : List F :=
  quotient_chunk_products (quotientValuesRow pd cd w beta gamma x i)
    cd.quotient_degree_factor

/-- The chunk products of every subgroup row, from `prover.rs` lines
752-778 (the subgroup is enumerated in order). -/
def allQuotientChunkProducts (pd : ProverData F) (cd : CommonData F)
    (w : List (List F)) (beta gamma : F) : List (List F) :=
  pd.subgroup.enum.map (fun p => rowChunkProducts pd cd w beta gamma p.2 p.1)

/-- Running products of the chunk products of one row, seeded by the incoming
`Z` value; the final entry is `Z(g x)`.  Modelled from the spec: "The grand
product `Z` is defined by `Z(first point) = 1` and
`Z(g*x) = Z(x) * prod(chunk products at x)`", with the intermediate partial
products accumulating chunk by chunk and "z_x updated by popping the last
partial-product value" (`partial_products_and_z_gx` lives in the repository's
util module, outside `src/`). -/
def partial_products_and_z_gx (z : F) : List F → List F
  | [] => []
  | q :: rest => (z * q) :: partial_products_and_z_gx (z * q) rest

/-- The row loop of `prover.rs` lines 780-788: walk the rows carrying the
running product `z_x`, and swap `z_x` with the last partial-product slot of
each row (so the row stores `Z(x)` rather than `Z(g x)`). -/
def zLoopRows (np : Nat) : F → List (List F) → List (List F)
  | _, [] => []
  | z, qcp :: rest =>
    let v := partial_products_and_z_gx z qcp
    (v.set np z) :: zLoopRows np (v.getD np 0) rest

/-- Transposition of a rectangular row-major matrix into its columns.
Modelled from the spec: "Every wire-slot column of the resulting matrix is
independently transposed into one polynomial each" (`util::transpose` lives
outside `src/`). -/
def transposeL (m : List (List F)) : List (List F) :=
  (List.range (m.headD []).length).map (fun c => m.map (fun row => row.getD c 0))

/-- The permutation-argument builder `wires_permutation_partial_products_and_zs`
of `prover.rs` lines 737-794: per-row chunk products, the `Z` row loop with
the one-slot swap, and the final transposition into polynomials. -/
def wires_permutation_partial_products_and_zs (w : List (List F))
    (beta gamma : F) (pd : ProverData F) (cd : CommonData F) : List (List F) :=
  transposeL (zLoopRows cd.num_partial_products 1
    (allQuotientChunkProducts pd cd w beta gamma))

/-- `all_wires_permutation_partial_products` of `prover.rs` lines 710-732: one
builder run per challenge instance. -/
def all_wires_permutation_partial_products (w : List (List F))
    (betas gammas : List F) (pd : ProverData F) (cd : CommonData F) :
    List (List (List F)) :=
  (List.range cd.config.num_challenges).map (fun i =>
    wires_permutation_partial_products_and_zs w (betas.getD i 0)
      (gammas.getD i 0) pd cd)

/-- The reordering of `prover.rs` lines 120-125: pop the `Z` polynomial (the
last entry) of every instance to the front of the whole batch, then append the
concatenation of the remaining partial-product polynomials. -/
def reorderZs (pps : List (List (List F))) : List (List F) :=
  (pps.map (fun inst => inst.getLastD [])) ++
    (pps.map (fun inst => inst.dropLast)).flatten

/-- Product of all chunk products of one row (the full-row product
`prod_j numerator_j / denominator_j`). -/
def rowFullProducts (pd : ProverData F) (cd : CommonData F)
    (w : List (List F)) (beta gamma : F) : List F :=
  (allQuotientChunkProducts pd cd w beta gamma).map List.prod

/-- The telescoping total: the product of all full-row products; for a witness
satisfying the copy constraints this must equal `1`. -/
def telescopeTotal (pd : ProverData F) (cd : CommonData F)
    (w : List (List F)) (beta gamma : F) : F :=
  (rowFullProducts pd cd w beta gamma).prod

end Builder

section BuilderLemmas

variable {F : Type} [Field F]

theorem partial_products_and_z_gx_cons (z q : F) (rest : List F) :
    partial_products_and_z_gx z (q :: rest)
      = (z * q) :: partial_products_and_z_gx (z * q) rest := rfl

theorem zLoopRows_cons (np : Nat) (z : F) (qcp : List F) (rest : List (List F)) :
    zLoopRows np z (qcp :: rest)
      = ((partial_products_and_z_gx z qcp).set np z)
        :: zLoopRows np ((partial_products_and_z_gx z qcp).getD np 0) rest := rfl

theorem partial_products_and_z_gx_length (z : F) (l : List F) :
    (partial_products_and_z_gx z l).length = l.length := by
  induction l generalizing z with
  | nil => rfl
  | cons q rest ih => simp [partial_products_and_z_gx_cons, ih]

/-- The last running product is the incoming `Z` value times the full product
of the chunk products, i.e. `Z(g x)`. -/
theorem partial_products_and_z_gx_last (z : F) (l : List F) (hl : l ≠ []) :
    (partial_products_and_z_gx z l).getD (l.length - 1) 0 = z * l.prod := by
  induction l generalizing z with
  | nil => exact absurd rfl hl
  | cons q rest ih =>
    cases rest with
    | nil => simp [partial_products_and_z_gx_cons, partial_products_and_z_gx]
    | cons q2 rest2 =>
      rw [partial_products_and_z_gx_cons]
      have h1 : (q :: q2 :: rest2).length - 1 = ((q2 :: rest2).length - 1) + 1 := by
        simp
      rw [h1, List.getD_cons_succ, ih (z * q) (by simp)]
      simp [List.prod_cons]
      ring

/-- Intermediate accumulator values: entry `k` of the running products is the
seed times the product of the first `k + 1` chunk products. -/
theorem partial_products_and_z_gx_getD (z : F) (l : List F) (k : Nat)
    (hk : k < l.length) :
    (partial_products_and_z_gx z l).getD k 0 = z * (l.take (k + 1)).prod := by
  induction l generalizing z k with
  | nil => simp at hk
  | cons q rest ih =>
    rw [partial_products_and_z_gx_cons]
    cases k with
    | zero => simp
    | succ k =>
      rw [List.getD_cons_succ, List.take_succ_cons, ih (z * q) k (by simpa using hk)]
      simp [List.prod_cons]
      ring

theorem zLoopRows_length (np : Nat) (z : F) (rows : List (List F)) :
    (zLoopRows np z rows).length = rows.length := by
  induction rows generalizing z with
  | nil => rfl
  | cons qcp rest ih => simp [zLoopRows_cons, ih]

/-- Each output row of the `Z` loop has the same length as its chunk-product
row. -/
theorem zLoopRows_mem_length (np : Nat) (z : F) (rows : List (List F))
    (hlen : ∀ r ∈ rows, r.length = np + 1) :
    ∀ r ∈ zLoopRows np z rows, r.length = np + 1 := by
  induction rows generalizing z with
  | nil => intro r hr; simp [zLoopRows] at hr
  | cons qcp rest ih =>
    intro r hr
    rw [zLoopRows_cons] at hr
    rcases List.mem_cons.mp hr with hr | hr
    · subst hr
      rw [List.length_set, partial_products_and_z_gx_length]
      exact hlen qcp (by simp)
    · exact ih _ (fun r2 hr2 => hlen r2 (by simp [hr2])) r hr

/-- The `Z` column of the loop output: slot `i` holds the seed times the
prefix product of the full-row products of the rows before `i`. -/
theorem zLoopRows_z_column (np : Nat) (rows : List (List F))
    (hlen : ∀ r ∈ rows, r.length = np + 1) :
    ∀ (z : F) (i : Nat), i < rows.length →
      ((zLoopRows np z rows).map (fun v => v.getD np 0)).getD i 0
        = z * ((rows.take i).map List.prod).prod := by
  induction rows with
  | nil => intro z i hi; simp at hi
  | cons qcp rest ih =>
    intro z i hi
    have hq : qcp.length = np + 1 := hlen qcp (by simp)
    have hnp : np < (partial_products_and_z_gx z qcp).length := by
      rw [partial_products_and_z_gx_length, hq]; omega
    rw [zLoopRows_cons]
    cases i with
    | zero =>
      simp only [List.map_cons, List.getD_cons_zero, List.take_zero,
        List.map_nil, List.prod_nil, mul_one]
      have hlt : np < ((partial_products_and_z_gx z qcp).set np z).length := by
        simpa using hnp
      rw [List.getD_eq_getElem _ _ hlt]
      exact List.getElem_set_self _
    | succ i =>
      simp only [List.map_cons, List.getD_cons_succ, List.take_succ_cons,
        List.prod_cons]
      have hznew : (partial_products_and_z_gx z qcp).getD np 0 = z * qcp.prod := by
        have h1 : np = qcp.length - 1 := by omega
        rw [h1, partial_products_and_z_gx_last z qcp (by
          intro hq0; rw [hq0] at hq; simp at hq)]
      rw [hznew,
        ih (fun r hr => hlen r (by simp [hr])) (z * qcp.prod) i (by simpa using hi)]
      ring

/-- Reading column `c` of the transpose. -/
theorem transposeL_getD (m : List (List F)) (c : Nat)
    (hc : c < (m.headD []).length) :
    (transposeL m).getD c [] = m.map (fun row => row.getD c 0) := by
  have hlt : c < (transposeL m).length := by simpa [transposeL] using hc
  rw [List.getD_eq_getElem _ _ hlt]
  simp [transposeL]

/-- `zipWith` of two maps over a common index list. -/
theorem zipWith_map_same {A B C E : Type} (f : B → C → E) (g : A → B)
    (h : A → C) (l : List A) :
    List.zipWith f (l.map g) (l.map h) = l.map (fun x => f (g x) (h x)) := by
  induction l with
  | nil => rfl
  | cons x xs ih => simp [ih]

end BuilderLemmas

deriving instance DecidableEq for Except

section PipelineData

variable (F : Type)

/-- External collaborators of the proving orchestrators (spec section 6):
witness generator, hashing, Fiat-Shamir challenger internals, commitment
oracle, constraint evaluator, domain tables, opening-proof machinery, and the
device-resident (GPU) counterparts used by `my_prove`.  All are code of the
repository living outside `src/`, modelled from the spec as deterministic
functions. -/
structure Env where
  generateWitness : List F → List F
  getTargets : List F → List F
  hashPublicInputs : List F → List F
  fullWitness : List F → List (List F)
  myFullWitness : List F → List (List F)
  cap : List (List F) → List F
  getLde : Commitment F → Nat → Nat → List F
  getN : List F → Nat → List F × List F
  getExt : List F → F × List F
  evalPoint : Nat → F → List F → List F → List F → List F → List F → List F →
    List F → List F → List F → List F → List F
  zhInv : Nat → F
  cosetShift : F
  twoAdicSubgroup : Nat → List F
  primRoot : Nat → F
  openingSet : F → F → Commitment F → Commitment F → Commitment F →
    Commitment F → List F
  proveOpenings : F → List (Commitment F) → List F → List F
  proveOpeningsGpu : F → List (Commitment F) → List F → List F
  fromValuesGpu : List F → Nat → Nat → Bool → List (List F) → Commitment F
  gpuQuotientCompute : List F → Commitment F → Commitment F → Commitment F →
    List F → List F → List F → List F
  fromCoeffsGpu : List F → Nat → Nat → Bool → List (List F) → Commitment F

/-- Stage markers of a proving run, in execution order. -/
inductive PEvent where
  | genWitness
  | wiresCommit
  | ppCompute
  | ppCommit
  | quotientCompute
  | quotientCommit
  | openingSetBuilt
  | openingProofBuilt
  deriving DecidableEq

/-- Fatal error outcomes of a proving run. -/
inductive PErr where
  | configCheck
  | rateCheck
  | trimFailed
  | zetaInSubgroup
  | wiresLenCheck
  | quotientDegreeCheck
  deriving DecidableEq

/-- The final proof object: the three commitment caps produced in this run,
the opening set, the opening proof, and the public inputs. -/
structure ProofResult where
  wires_cap : List F
  plonk_zs_partial_products_cap : List F
  quotient_polys_cap : List F
  openings : List F
  opening_proof : List F
  public_inputs : List F
  deriving DecidableEq

end PipelineData

/-- Blinding flag of the wires oracle (`PlonkOracle::WIRES.blinding`).
Modelled from the spec: the oracle descriptors live outside `src/`; the wire
polynomials are blinded when zero-knowledge is configured. -/
def blindWIRES : Bool := true

/-- Blinding flag of the permutation oracle
(`PlonkOracle::ZS_PARTIAL_PRODUCTS.blinding`), modelled from the spec. -/
def blindZS : Bool := true

/-- Blinding flag of the quotient oracle (`PlonkOracle::QUOTIENT.blinding`),
modelled from the spec. -/
def blindQUOTIENT : Bool := true

/-- Ceiling base-2 logarithm: the least `k` with `n ≤ 2 ^ k`, mirroring
`log2_ceil` from the repository's util module (modelled from the spec's
degree arithmetic). -/
def log2_ceil (n : Nat) : Nat :=
  ((List.range (n + 1)).find? (fun k => n ≤ 2 ^ k)).getD 0

section PipelineDefs

variable {F : Type} [Field F] [DecidableEq F]

/-- `PolynomialBatch::from_values`.  Modelled from the spec: a deterministic
commitment to the batch; when blinding is enabled, salt polynomials derived
from the prover's randomness are appended to the batch before committing. -/
def fromValues (env : Env F) (polys : List (List F)) (blinding : Bool)
    (salt : List (List F)) : Commitment F :=
  let input := polys ++ (if blinding then salt else [])
  ⟨input, env.cap input⟩

/-- `PolynomialBatch::from_coeffs`, modelled from the spec like
`fromValues`. -/
def fromCoeffs (env : Env F) (polys : List (List F)) (blinding : Bool)
    (salt : List (List F)) : Commitment F :=
  let input := polys ++ (if blinding then salt else [])
  ⟨input, env.cap input⟩

/-- `x.exp_power_of_2 n = x ^ (2 ^ n)` by iterated squaring (the field method
lives outside `src/`, modelled from the spec's consistency-check formula). -/
def expPow2 (x : F) : Nat → F
  | 0 => x
  | n + 1 => expPow2 (x * x) n

/-- `PolynomialCoeffs::trim_to_len`.  Modelled from the spec: "Trimming must
succeed exactly — if the evaluated quotient is not divisible by the vanishing
polynomial (values beyond the expected coefficient count are non-zero), this
is a fatal soundness/correctness failure"; the list must also be at least the
requested length. -/
def trim_to_len (n : Nat) (p : List F) : Except PErr (List F) :=
  if p.length < n then .error .trimFailed
  else if (p.drop n).any (fun c => decide (c ≠ 0)) then .error .trimFailed
  else .ok (p.take n)

/-- Trim one quotient polynomial to `quotient_degree` coefficients and split
it into degree-`n` chunks (`prover.rs` lines 161-174). -/
def trimAndChunk (cd : CommonData F) (p : List F) : Except PErr (List (List F)) :=
  (trim_to_len cd.quotientDegree p).map (fun q => listChunks cd.degree q)

/-- Trim-and-split every quotient polynomial, failing fatally if any trim
fails (`prover.rs` lines 161-174). -/
def collectChunks (cd : CommonData F) : List (List F) → Except PErr (List (List F))
  | [] => .ok []
  | p :: rest =>
    match trimAndChunk cd p with
    | .error e => .error e
    | .ok c =>
      match collectChunks cd rest with
      | .error e => .error e
      | .ok cs => .ok (c ++ cs)

/-- The per-point work of the quotient evaluator (`prover.rs` lines 918-1003):
gather the LDE values at index `i` (and at the `next_step`-shifted index,
modulo the extended-domain size), slice out constants / sigmas / `Z`s /
partial products, evaluate the combined constraint (the
`eval_vanishing_poly_base_batch` internals live outside `src/` and are
modelled from the spec as an independent per-point evaluation), and scale by
the inverse of the vanishing polynomial at `i`. -/
def quotientPerPoint (env : Env F) (cd : CommonData F) (pd : ProverData F)
    (piHash : List F) (wC zC : Commitment F) (betas gammas alphas : List F)
    (ldeSize step nextStep : Nat) (p : Nat × F) : List F :=
  let i := p.1
  let shifted_x := env.cosetShift * p.2
  let i_next := (i + nextStep) % ldeSize
  let lcs := env.getLde pd.constants_sigmas_commitment i step
  let local_constants := lcs.take cd.num_constants
  let s_sigmas := (lcs.drop cd.num_constants).take cd.config.num_routed_wires
  let local_wires := env.getLde wC i step
  let lzpp := env.getLde zC i step
  let local_zs := lzpp.take cd.config.num_challenges
  let next_zs := (env.getLde zC i_next step).take cd.config.num_challenges
  let pps := lzpp.drop cd.config.num_challenges
  (env.evalPoint i shifted_x piHash local_constants local_wires local_zs
    next_zs pps s_sigmas betas gammas alphas).map (fun v => v * env.zhInv i)

/-- Batch size of the quotient evaluator (`prover.rs` line 796). -/
def BATCH_SIZE : Nat := 32

/-- The batched quotient-value computation of `compute_quotient_polys`
(`prover.rs` lines 892-1007), with the batch size as a parameter: the domain
is chunked into batches, the indices of each batch are reconstructed from the
batch number, and each batch is evaluated pointwise and flattened back in
order. -/
def computeQuotientValuesB (env : Env F) (cd : CommonData F)
    (pd : ProverData F) (piHash : List F) (wC zC : Commitment F)
    (betas gammas alphas : List F) (b : Nat) : List (List F) :=
  let qdbits := log2_ceil cd.quotient_degree_factor
  let step := 2 ^ (cd.config.rate_bits - qdbits)
  let nextStep := 2 ^ qdbits
  let points := env.twoAdicSubgroup (cd.degree_bits + qdbits)
  let ldeSize := points.length
  ((listChunks b points).enum).flatMap (fun bx =>
    ((List.range' (b * bx.1) bx.2.length).zip bx.2).map
      (quotientPerPoint env cd pd piHash wC zC betas gammas alphas
        ldeSize step nextStep))

/-- The full quotient evaluator `compute_quotient_polys` (`prover.rs` lines
798-1042) with the batch size as a parameter: compute the per-point values,
transpose them into one value vector per challenge instance, and coset-IFFT
each vector into coefficient form. -/
def computeQuotientPolysB (env : Env F) (cd : CommonData F)
    (pd : ProverData F) (piHash : List F) (wC zC : Commitment F)
    (betas gammas alphas : List F) (b : Nat) : List (List F) :=
  let qdbits := log2_ceil cd.quotient_degree_factor
  let points := env.twoAdicSubgroup (cd.degree_bits + qdbits)
  let values := computeQuotientValuesB env cd pd piHash wC zC betas gammas
    alphas b
  (transposeL values).map (fun col =>
    lagrangeInterp (points.map (fun x => env.cosetShift * x)) col)

end PipelineDefs

section ProveStages

variable {F : Type} [Field F] [DecidableEq F]

/-- `generate_partial_witness` call of `prove` (`prover.rs` lines 62-66). -/
def pvPW (env : Env F) (inputs : List F) : List F := env.generateWitness inputs

/-- Public inputs read from the partition witness (`prover.rs` line 68). -/
def pvPublicInputs (env : Env F) (inputs : List F) : List F :=
  env.getTargets (pvPW env inputs)

/-- Public-input hash (`prover.rs` line 69). -/
def pvPIHash (env : Env F) (inputs : List F) : List F :=
  env.hashPublicInputs (pvPublicInputs env inputs)

/-- Full witness matrix, as wire columns (`prover.rs` lines 71-85). -/
def pvWitness (env : Env F) (inputs : List F) : List (List F) :=
  env.fullWitness (pvPW env inputs)

/-- Wire commitment (`prover.rs` lines 87-99). -/
def pvWiresC (env : Env F) (cd : CommonData F) (inputs : List F)
    (rng : Nat → List (List F)) : Commitment F :=
  fromValues env (pvWitness env inputs)
    (cd.config.zero_knowledge && blindWIRES) (rng 0)

/-- Challenger transcript after observing the circuit digest, the
public-input hash and the wire cap; the challenger starts from the fixed
empty state `Challenger::new()` (`prover.rs` lines 100-106). -/
def pvSt1 (env : Env F) (pd : ProverData F) (cd : CommonData F)
    (inputs : List F) (rng : Nat → List (List F)) : List F :=
  pd.circuit_digest ++ pvPIHash env inputs ++ (pvWiresC env cd inputs rng).cap

/-- `betas` drawn from the transcript (`prover.rs` line 107). -/
def pvBetas (env : Env F) (pd : ProverData F) (cd : CommonData F)
    (inputs : List F) (rng : Nat → List (List F)) : List F :=
  (env.getN (pvSt1 env pd cd inputs rng) cd.config.num_challenges).1

def pvSt2 (env : Env F) (pd : ProverData F) (cd : CommonData F)
    (inputs : List F) (rng : Nat → List (List F)) : List F :=
  (env.getN (pvSt1 env pd cd inputs rng) cd.config.num_challenges).2

/-- `gammas` drawn from the transcript (`prover.rs` line 108). -/
def pvGammas (env : Env F) (pd : ProverData F) (cd : CommonData F)
    (inputs : List F) (rng : Nat → List (List F)) : List F :=
  (env.getN (pvSt2 env pd cd inputs rng) cd.config.num_challenges).1

def pvSt3 (env : Env F) (pd : ProverData F) (cd : CommonData F)
    (inputs : List F) (rng : Nat → List (List F)) : List F :=
  (env.getN (pvSt2 env pd cd inputs rng) cd.config.num_challenges).2

/-- Partial products of every challenge instance (`prover.rs` lines
114-118). -/
def pvPP (env : Env F) (pd : ProverData F) (cd : CommonData F)
    (inputs : List F) (rng : Nat → List (List F)) : List (List (List F)) :=
  all_wires_permutation_partial_products (pvWitness env inputs)
    (pvBetas env pd cd inputs rng) (pvGammas env pd cd inputs rng) pd cd

/-- The committed batch with all `Z`s popped to the front (`prover.rs` lines
120-125). -/
def pvZsPP (env : Env F) (pd : ProverData F) (cd : CommonData F)
    (inputs : List F) (rng : Nat → List (List F)) : List (List F) :=
  reorderZs (pvPP env pd cd inputs rng)

/-- Commitment to the partial products and `Z`s (`prover.rs` lines
127-138). -/
def pvZsC (env : Env F) (pd : ProverData F) (cd : CommonData F)
    (inputs : List F) (rng : Nat → List (List F)) : Commitment F :=
  fromValues env (pvZsPP env pd cd inputs rng)
    (cd.config.zero_knowledge && blindZS) (rng 1)

def pvSt4 (env : Env F) (pd : ProverData F) (cd : CommonData F)
    (inputs : List F) (rng : Nat → List (List F)) : List F :=
  pvSt3 env pd cd inputs rng ++ (pvZsC env pd cd inputs rng).cap

/-- `alphas` drawn from the transcript (`prover.rs` lines 140-142). -/
def pvAlphas (env : Env F) (pd : ProverData F) (cd : CommonData F)
    (inputs : List F) (rng : Nat → List (List F)) : List F :=
  (env.getN (pvSt4 env pd cd inputs rng) cd.config.num_challenges).1

def pvSt5 (env : Env F) (pd : ProverData F) (cd : CommonData F)
    (inputs : List F) (rng : Nat → List (List F)) : List F :=
  (env.getN (pvSt4 env pd cd inputs rng) cd.config.num_challenges).2

/-- The quotient polynomials computed with the reference batch size
(`prover.rs` lines 144-158). -/
def pvQuotientPolys (env : Env F) (pd : ProverData F) (cd : CommonData F)
    (inputs : List F) (rng : Nat → List (List F)) : List (List F) :=
  computeQuotientPolysB env cd pd (pvPIHash env inputs)
    (pvWiresC env cd inputs rng) (pvZsC env pd cd inputs rng)
    (pvBetas env pd cd inputs rng) (pvGammas env pd cd inputs rng)
    (pvAlphas env pd cd inputs rng) BATCH_SIZE

/-- Trim-and-split of the quotient polynomials (`prover.rs` lines
161-174). -/
def pvChunks (env : Env F) (pd : ProverData F) (cd : CommonData F)
    (inputs : List F) (rng : Nat → List (List F)) :
    Except PErr (List (List F)) :=
  collectChunks cd (pvQuotientPolys env pd cd inputs rng)

/-- Quotient commitment (`prover.rs` lines 176-187). -/
def pvQC (env : Env F) (cd : CommonData F) (rng : Nat → List (List F))
    (cs : List (List F)) : Commitment F :=
  fromCoeffs env cs (cd.config.zero_knowledge && blindQUOTIENT) (rng 2)

/-- The tail of `prove` after the quotient round (`prover.rs` lines
189-245): observe the quotient cap, draw `zeta`, reject it if it lies in the
evaluation subgroup, and otherwise run the opening round and assemble the
proof. -/
def proveAfterQuotient (env : Env F) (cd : CommonData F)
    (csC wC zC qC : Commitment F) (pubis : List F) (st5 : List F) :
    List PEvent × Except PErr (ProofResult F) :=
  let st6 := st5 ++ qC.cap
  let zeta := (env.getExt st6).1
  let st7 := (env.getExt st6).2
  if expPow2 zeta cd.degree_bits = 1 then ([], .error .zetaInSubgroup)
  else
    let g := env.primRoot cd.degree_bits
    let openings := env.openingSet zeta g csC wC zC qC
    let st8 := st7 ++ openings
    let oproof := env.proveOpenings zeta [csC, wC, zC, qC] st8
    ([.openingSetBuilt, .openingProofBuilt],
      .ok { wires_cap := wC.cap, plonk_zs_partial_products_cap := zC.cap,
            quotient_polys_cap := qC.cap, openings := openings,
            opening_proof := oproof, public_inputs := pubis })

/-- The non-accelerated proving orchestrator `prove` (`prover.rs` lines
51-245), as a sequence of stage events paired with the run outcome.  The
configuration assertion of lines 110-113 sits after witness generation and
the wire commitment and before the partial-product work; the rate assertion
sits at the head of `compute_quotient_polys` (line 816); a failed trim or a
`zeta` inside the subgroup abort the run. -/
def prove (env : Env F) (pd : ProverData F) (cd : CommonData F)
    (inputs : List F) (rng : Nat → List (List F)) :
    List PEvent × Except PErr (ProofResult F) :=
  if ¬ (cd.quotient_degree_factor < cd.config.num_routed_wires) then
    ([.genWitness, .wiresCommit], .error .configCheck)
  else if ¬ (log2_ceil cd.quotient_degree_factor ≤ cd.config.rate_bits) then
    ([.genWitness, .wiresCommit, .ppCompute, .ppCommit], .error .rateCheck)
  else
    match pvChunks env pd cd inputs rng with
    | .error e =>
      ([.genWitness, .wiresCommit, .ppCompute, .ppCommit, .quotientCompute],
        .error e)
    | .ok cs =>
      let tail := proveAfterQuotient env cd pd.constants_sigmas_commitment
        (pvWiresC env cd inputs rng) (pvZsC env pd cd inputs rng)
        (pvQC env cd rng cs) (pvPublicInputs env inputs)
        (pvSt5 env pd cd inputs rng)
      ([.genWitness, .wiresCommit, .ppCompute, .ppCommit, .quotientCompute,
        .quotientCommit] ++ tail.1, tail.2)

end ProveStages

section MyProveStages

variable {F : Type} [Field F] [DecidableEq F]

/-- Witness matrix of the accelerated path, produced by `my_full_witness`
(`prover.rs` lines 275-279). -/
def mpWitness (env : Env F) (inputs : List F) : List (List F) :=
  env.myFullWitness (pvPW env inputs)

/-- The flattened wire values `my_wire_values` used by the GPU commitment
(`prover.rs` lines 281-291). -/
def mpFlat (env : Env F) (inputs : List F) : List F :=
  (mpWitness env inputs).flatten

/-- GPU wire commitment `from_values_with_gpu` (`prover.rs` lines
293-309). -/
def mpWiresC (env : Env F) (cd : CommonData F) (inputs : List F)
    (rng : Nat → List (List F)) : Commitment F :=
  env.fromValuesGpu (mpFlat env inputs) cd.config.num_wires cd.degree
    (cd.config.zero_knowledge && blindWIRES) (rng 0)

/-- Challenger transcript of the accelerated path after the same three
observations (`prover.rs` lines 310-320). -/
def mpSt1 (env : Env F) (pd : ProverData F) (cd : CommonData F)
    (inputs : List F) (rng : Nat → List (List F)) : List F :=
  pd.circuit_digest ++ pvPIHash env inputs ++ (mpWiresC env cd inputs rng).cap

def mpBetas (env : Env F) (pd : ProverData F) (cd : CommonData F)
    (inputs : List F) (rng : Nat → List (List F)) : List F :=
  (env.getN (mpSt1 env pd cd inputs rng) cd.config.num_challenges).1

def mpSt2 (env : Env F) (pd : ProverData F) (cd : CommonData F)
    (inputs : List F) (rng : Nat → List (List F)) : List F :=
  (env.getN (mpSt1 env pd cd inputs rng) cd.config.num_challenges).2

def mpGammas (env : Env F) (pd : ProverData F) (cd : CommonData F)
    (inputs : List F) (rng : Nat → List (List F)) : List F :=
  (env.getN (mpSt2 env pd cd inputs rng) cd.config.num_challenges).1

def mpSt3 (env : Env F) (pd : ProverData F) (cd : CommonData F)
    (inputs : List F) (rng : Nat → List (List F)) : List F :=
  (env.getN (mpSt2 env pd cd inputs rng) cd.config.num_challenges).2

/-- Partial products of the accelerated path (`prover.rs` lines 330-334),
computed by the same builder on the `my_full_witness` matrix. -/
def mpPP (env : Env F) (pd : ProverData F) (cd : CommonData F)
    (inputs : List F) (rng : Nat → List (List F)) : List (List (List F)) :=
  all_wires_permutation_partial_products (mpWitness env inputs)
    (mpBetas env pd cd inputs rng) (mpGammas env pd cd inputs rng) pd cd

/-- The reordered batch of the accelerated path (`prover.rs` lines
358-363). -/
def mpZsPP (env : Env F) (pd : ProverData F) (cd : CommonData F)
    (inputs : List F) (rng : Nat → List (List F)) : List (List F) :=
  reorderZs (mpPP env pd cd inputs rng)

/-- Flattened `zs_partial_products` (`prover.rs` line 373). -/
def mpZsFlat (env : Env F) (pd : ProverData F) (cd : CommonData F)
    (inputs : List F) (rng : Nat → List (List F)) : List F :=
  (mpZsPP env pd cd inputs rng).flatten

/-- GPU commitment to the partial products and `Z`s (`prover.rs` lines
374-390). -/
def mpZsC (env : Env F) (pd : ProverData F) (cd : CommonData F)
    (inputs : List F) (rng : Nat → List (List F)) : Commitment F :=
  env.fromValuesGpu (mpZsFlat env pd cd inputs rng)
    ((mpZsFlat env pd cd inputs rng).length / cd.degree) cd.degree
    (cd.config.zero_knowledge && blindZS) (rng 1)

def mpSt4 (env : Env F) (pd : ProverData F) (cd : CommonData F)
    (inputs : List F) (rng : Nat → List (List F)) : List F :=
  mpSt3 env pd cd inputs rng ++ (mpZsC env pd cd inputs rng).cap

def mpAlphas (env : Env F) (pd : ProverData F) (cd : CommonData F)
    (inputs : List F) (rng : Nat → List (List F)) : List F :=
  (env.getN (mpSt4 env pd cd inputs rng) cd.config.num_challenges).1

def mpSt5 (env : Env F) (pd : ProverData F) (cd : CommonData F)
    (inputs : List F) (rng : Nat → List (List F)) : List F :=
  (env.getN (mpSt4 env pd cd inputs rng) cd.config.num_challenges).2

/-- The device-side quotient evaluation
(`plonky2_cuda::compute_quotient_polys`, `prover.rs` lines 437-592); the
kernel lives outside `src/`. -/
def mpQData (env : Env F) (pd : ProverData F) (cd : CommonData F)
    (inputs : List F) (rng : Nat → List (List F)) : List F :=
  env.gpuQuotientCompute (pvPIHash env inputs)
    pd.constants_sigmas_commitment (mpWiresC env cd inputs rng)
    (mpZsC env pd cd inputs rng) (mpBetas env pd cd inputs rng)
    (mpGammas env pd cd inputs rng) (mpAlphas env pd cd inputs rng)

/-- GPU quotient commitment `from_coeffs_with_gpu` (`prover.rs` lines
627-640): `num_challenges * 2^rate_bits` chunks of length `degree` are
committed straight from the device buffer, with no trim step. -/
def mpQC (env : Env F) (pd : ProverData F) (cd : CommonData F)
    (inputs : List F) (rng : Nat → List (List F)) : Commitment F :=
  env.fromCoeffsGpu (mpQData env pd cd inputs rng)
    (cd.config.num_challenges * 2 ^ cd.config.rate_bits) cd.degree
    (cd.config.zero_knowledge && blindQUOTIENT) (rng 2)

/-- The tail of `my_prove` after the quotient round (`prover.rs` lines
642-708), identical to the non-accelerated tail except that the opening
proof runs with the GPU context. -/
def myProveAfterQuotient (env : Env F) (cd : CommonData F)
    (csC wC zC qC : Commitment F) (pubis : List F) (st5 : List F) :
    List PEvent × Except PErr (ProofResult F) :=
  let st6 := st5 ++ qC.cap
  let zeta := (env.getExt st6).1
  let st7 := (env.getExt st6).2
  if expPow2 zeta cd.degree_bits = 1 then ([], .error .zetaInSubgroup)
  else
    let g := env.primRoot cd.degree_bits
    let openings := env.openingSet zeta g csC wC zC qC
    let st8 := st7 ++ openings
    let oproof := env.proveOpeningsGpu zeta [csC, wC, zC, qC] st8
    ([.openingSetBuilt, .openingProofBuilt],
      .ok { wires_cap := wC.cap, plonk_zs_partial_products_cap := zC.cap,
            quotient_polys_cap := qC.cap, openings := openings,
            opening_proof := oproof, public_inputs := pubis })

/-- The accelerated proving orchestrator `my_prove` (`prover.rs` lines
248-708): it additionally asserts that the flattened wire values divide
evenly into columns (line 291) and that `quotient_degree` equals
`degree << rate_bits` (line 611), performs no trim of the quotient
coefficients, and commits via the GPU oracle. -/
def my_prove (env : Env F) (pd : ProverData F) (cd : CommonData F)
    (inputs : List F) (rng : Nat → List (List F)) :
    List PEvent × Except PErr (ProofResult F) :=
  if ¬ ((mpFlat env inputs).length % cd.degree = 0) then
    ([.genWitness], .error .wiresLenCheck)
  else if ¬ (cd.quotient_degree_factor < cd.config.num_routed_wires) then
    ([.genWitness, .wiresCommit], .error .configCheck)
  else if ¬ (cd.quotientDegree = cd.degree * 2 ^ cd.config.rate_bits) then
    ([.genWitness, .wiresCommit, .ppCompute, .ppCommit, .quotientCompute],
      .error .quotientDegreeCheck)
  else
    let tail := myProveAfterQuotient env cd pd.constants_sigmas_commitment
      (mpWiresC env cd inputs rng) (mpZsC env pd cd inputs rng)
      (mpQC env pd cd inputs rng) (pvPublicInputs env inputs)
      (mpSt5 env pd cd inputs rng)
    ([.genWitness, .wiresCommit, .ppCompute, .ppCommit, .quotientCompute,
      .quotientCommit] ++ tail.1, tail.2)

end MyProveStages

section BatchInvariance

variable {α β : Type}

/-- Splitting an index-decorated list at position `n`. -/
theorem zip_range'_take_drop (l : List α) (s n : Nat) :
    (List.range' s l.length).zip l
      = ((List.range' s (l.take n).length).zip (l.take n))
        ++ ((List.range' (s + (l.take n).length) (l.drop n).length).zip
            (l.drop n)) := by
  conv_lhs => rw [← List.take_append_drop n l]
  rw [List.length_append, Nat.add_comm (l.take n).length (l.drop n).length]
  rw [← List.range'_append_1]
  rw [List.zip_append (by simp)]

/-- Enumerated chunks, flattened with per-chunk index reconstruction, give the
globally indexed list: the index arithmetic `b * batch_index + offset` of
`compute_quotient_polys` recovers every global domain index exactly once, in
order. -/
theorem chunks_enumFrom_flatMap (f : Nat × α → β) (b : Nat) (hb : b ≠ 0)
    (l : List α) (k : Nat) :
    ((listChunks b l).enumFrom k).flatMap
        (fun bx => ((List.range' (b * bx.1) bx.2.length).zip bx.2).map f)
      = ((List.range' (b * k) l.length).zip l).map f := by
  by_cases hl : l = []
  · subst hl; simp [listChunks_nil]
  · rw [listChunks_of_ne b l hl hb]
    rw [List.enumFrom_cons, List.flatMap_cons]
    rw [chunks_enumFrom_flatMap f b hb (l.drop b) (k + 1)]
    rw [zip_range'_take_drop l (b * k) b, List.map_append]
    congr 2
    by_cases hd : l.drop b = []
    · rw [hd]; simp
    · have htl : (l.take b).length = b := by
        have : b ≤ l.length := by
          by_contra hcon
          push_neg at hcon
          exact hd (List.drop_eq_nil_of_le (Nat.le_of_lt hcon))
        simp [this]
      rw [htl]
      ring_nf
termination_by l.length
decreasing_by
  have hk' : 0 < b := Nat.pos_of_ne_zero hb
  have hl' : 0 < l.length := List.length_pos.mpr hl
  simpa using Nat.sub_lt hl' hk'

end BatchInvariance

section QuotientLemmas

variable {F : Type} [Field F] [DecidableEq F]

/-- The batched quotient values are independent of the batch size: for any
positive batch size they equal the pointwise evaluation of the whole
domain. -/
theorem computeQuotientValuesB_eq_pointwise (env : Env F) (cd : CommonData F)
    (pd : ProverData F) (piHash : List F) (wC zC : Commitment F)
    (betas gammas alphas : List F) (b : Nat) (hb : b ≠ 0) :
    computeQuotientValuesB env cd pd piHash wC zC betas gammas alphas b
      = (((List.range' 0
            (env.twoAdicSubgroup
              (cd.degree_bits + log2_ceil cd.quotient_degree_factor)).length).zip
          (env.twoAdicSubgroup
            (cd.degree_bits + log2_ceil cd.quotient_degree_factor))).map
        (quotientPerPoint env cd pd piHash wC zC betas gammas alphas
          (env.twoAdicSubgroup
            (cd.degree_bits + log2_ceil cd.quotient_degree_factor)).length
          (2 ^ (cd.config.rate_bits - log2_ceil cd.quotient_degree_factor))
          (2 ^ log2_ceil cd.quotient_degree_factor))) := by
  rw [computeQuotientValuesB]
  rw [List.enum_eq_enumFrom]
  rw [chunks_enumFrom_flatMap _ b hb _ 0]
  rw [Nat.mul_zero]

/-- Every quotient polynomial produced by the evaluator has the length of the
extended evaluation domain. -/
theorem computeQuotientPolysB_lengths (env : Env F) (cd : CommonData F)
    (pd : ProverData F) (piHash : List F) (wC zC : Commitment F)
    (betas gammas alphas : List F) (b : Nat) :
    ∀ p ∈ computeQuotientPolysB env cd pd piHash wC zC betas gammas alphas b,
      p.length = (env.twoAdicSubgroup
        (cd.degree_bits + log2_ceil cd.quotient_degree_factor)).length := by
  intro p hp
  rw [computeQuotientPolysB] at hp
  simp only [List.mem_map] at hp
  obtain ⟨col, _, hcol⟩ := hp
  rw [← hcol, lagrangeInterp_length, List.length_map]

end QuotientLemmas

section TrimLemmas

variable {F : Type} [Field F] [DecidableEq F]

/-- Any error of `trim_to_len` is the trim failure. -/
theorem trimAndChunk_error_eq (cd : CommonData F) (p : List F) (e : PErr)
    (h : trimAndChunk cd p = .error e) : e = PErr.trimFailed := by
  rw [trimAndChunk, trim_to_len] at h
  split at h
  · simp only [Except.map] at h
    exact (Except.error.inj h).symm
  · split at h
    · simp only [Except.map] at h
      exact (Except.error.inj h).symm
    · simp only [Except.map] at h
      exact absurd h (by simp)

/-- A nonzero coefficient at an index at or beyond the expected count makes
the trim fail. -/
theorem trimAndChunk_error_of_tail (cd : CommonData F) (p : List F) (k : Nat)
    (hk : cd.quotientDegree ≤ k) (hnz : p.getD k 0 ≠ 0) :
    trimAndChunk cd p = .error .trimFailed := by
  have hklen : k < p.length := by
    by_contra hcon
    push_neg at hcon
    exact hnz (List.getD_eq_default _ _ hcon)
  rw [trimAndChunk, trim_to_len]
  have h1 : ¬ (p.length < cd.quotientDegree) := by omega
  have h2 : (p.drop cd.quotientDegree).any (fun c => decide (c ≠ 0)) = true := by
    rw [List.any_eq_true]
    refine ⟨p.getD k 0, ?_, by simpa using hnz⟩
    rw [List.getD_eq_getElem _ _ hklen]
    have hidx : k - cd.quotientDegree < (p.drop cd.quotientDegree).length := by
      simp; omega
    have : (p.drop cd.quotientDegree)[k - cd.quotientDegree] = p[k] := by
      rw [List.getElem_drop]
      congr 1
      omega
    rw [← this]
    exact List.getElem_mem hidx
  rw [if_neg h1, if_pos h2]
  simp [Except.map]

/-- If some polynomial trims with an error, the whole collection fails with
the trim error. -/
theorem collectChunks_error (cd : CommonData F) (l : List (List F))
    (h : ∃ p ∈ l, ∃ e, trimAndChunk cd p = .error e) :
    collectChunks cd l = .error .trimFailed := by
  induction l with
  | nil => simp at h
  | cons p rest ih =>
    obtain ⟨q, hq, e, he⟩ := h
    rcases List.mem_cons.mp hq with hq | hq
    · subst hq
      have h3 := trimAndChunk_error_eq cd q e he
      subst h3
      rw [collectChunks, he]
    · rw [collectChunks]
      cases hcase : trimAndChunk cd p with
      | error e2 =>
        have h3 := trimAndChunk_error_eq cd p e2 hcase
        subst h3
        rfl
      | ok c =>
        rw [ih ⟨q, hq, e, he⟩]

/-- When a polynomial already has exactly the expected length, the trim is
vacuous and succeeds, splitting it into degree-`n` chunks. -/
theorem trimAndChunk_of_length (cd : CommonData F) (p : List F)
    (h : p.length = cd.quotientDegree) :
    trimAndChunk cd p = .ok (listChunks cd.degree (p.take cd.quotientDegree)) := by
  rw [trimAndChunk, trim_to_len]
  have h1 : ¬ (p.length < cd.quotientDegree) := by omega
  have h2 : p.drop cd.quotientDegree = [] := List.drop_eq_nil_of_le (by omega)
  rw [if_neg h1, h2]
  simp [Except.map]

/-- The chunks the accelerated path would commit: every quotient polynomial
taken at its expected length and split into degree-`n` chunks (the result of
the trim step when every trim is vacuous). -/
def quotientChunksNoTrim (cd : CommonData F) (l : List (List F)) :
    List (List F) :=
  (l.map (fun p => listChunks cd.degree (p.take cd.quotientDegree))).flatten

/-- When every quotient polynomial has exactly the expected length, the
trim-and-split step succeeds and returns the concatenated chunks. -/
theorem collectChunks_of_lengths (cd : CommonData F) (l : List (List F))
    (h : ∀ p ∈ l, p.length = cd.quotientDegree) :
    collectChunks cd l = .ok (quotientChunksNoTrim cd l) := by
  induction l with
  | nil => simp [collectChunks, quotientChunksNoTrim]
  | cons p rest ih =>
    rw [collectChunks, trimAndChunk_of_length cd p (h p (by simp))]
    rw [ih (fun q hq => h q (by simp [hq]))]
    rw [quotientChunksNoTrim]
    simp [quotientChunksNoTrim]

end TrimLemmas

section MiscLemmas

variable {F : Type} [Field F]

theorem transposeL_length (m : List (List F)) :
    (transposeL m).length = (m.headD []).length := by simp [transposeL]

theorem transposeL_mem_length (m : List (List F)) :
    ∀ q ∈ transposeL m, q.length = m.length := by
  intro q hq
  simp only [transposeL, List.mem_map] at hq
  obtain ⟨c, _, hc⟩ := hq
  rw [← hc, List.length_map]

theorem flatten_uniform_length {k : Nat} (cols : List (List F))
    (h : ∀ c ∈ cols, c.length = k) :
    cols.flatten.length = cols.length * k := by
  induction cols with
  | nil => simp
  | cons c rest ih =>
    simp only [List.flatten_cons, List.length_append, List.length_cons]
    rw [h c (by simp), ih (fun c2 hc2 => h c2 (by simp [hc2]))]
    ring

/-- Re-chunking a flattened uniform matrix recovers the original columns. -/
theorem listChunks_flatten_uniform {k : Nat} (hk : k ≠ 0)
    (cols : List (List F)) (h : ∀ c ∈ cols, c.length = k) :
    listChunks k cols.flatten = cols := by
  induction cols with
  | nil => simp [listChunks_nil]
  | cons c rest ih =>
    have hc : c.length = k := h c (by simp)
    have hcne : c ≠ [] := by
      intro hc0
      rw [hc0] at hc
      simp at hc
      exact hk hc.symm
    have hne : (c :: rest).flatten ≠ [] := by
      simp only [List.flatten_cons]
      intro hcon
      exact hcne (List.append_eq_nil.mp hcon).1
    rw [listChunks_of_ne k _ hne hk]
    simp only [List.flatten_cons]
    rw [← hc, List.take_left, List.drop_left]
    rw [hc, ih (fun c2 hc2 => h c2 (by simp [hc2]))]

theorem quotientValuesRow_length (pd : ProverData F) (cd : CommonData F)
    (w : List (List F)) (beta gamma x : F) (i : Nat) :
    (quotientValuesRow pd cd w beta gamma x i).length
      = cd.config.num_routed_wires := by
  rw [quotientValuesRow, List.length_zipWith, batch_multiplicative_inverse_length]
  simp [numeratorsRow, denominatorsRow]

theorem rowChunkProducts_length (pd : ProverData F) (cd : CommonData F)
    (w : List (List F)) (beta gamma x : F) (i : Nat)
    (hqdf : cd.quotient_degree_factor ≠ 0) :
    (rowChunkProducts pd cd w beta gamma x i).length
      = ceilDiv cd.config.num_routed_wires cd.quotient_degree_factor := by
  rw [rowChunkProducts, quotient_chunk_products, List.length_map,
    listChunks_length _ hqdf, quotientValuesRow_length]

theorem allQuotientChunkProducts_mem_length (pd : ProverData F)
    (cd : CommonData F) (w : List (List F)) (beta gamma : F)
    (hqdf : cd.quotient_degree_factor ≠ 0) :
    ∀ r ∈ allQuotientChunkProducts pd cd w beta gamma,
      r.length = ceilDiv cd.config.num_routed_wires cd.quotient_degree_factor := by
  intro r hr
  simp only [allQuotientChunkProducts, List.mem_map] at hr
  obtain ⟨p, _, hp⟩ := hr
  rw [← hp, rowChunkProducts_length _ _ _ _ _ _ _ hqdf]

theorem allQuotientChunkProducts_length (pd : ProverData F)
    (cd : CommonData F) (w : List (List F)) (beta gamma : F) :
    (allQuotientChunkProducts pd cd w beta gamma).length
      = pd.subgroup.length := by
  simp [allQuotientChunkProducts]

end MiscLemmas

section ClaimC2

variable {F : Type} [Field F]

/-- C2: For every witness matrix, beta, and gamma, the grand-product
polynomial built by `wires_permutation_partial_products_and_zs` satisfies
`Z(first subgroup point) = 1`; slot `i` of the `Z` polynomial holds the
prefix product of the full-row products of rows `0..i-1` (that is, `Z`
evaluated at row `i`, realigned by one row so it is not `Z` at row `i+1`);
and consecutive slots satisfy the recurrence
`Z(g x) = Z(x) * prod(chunk products at x)`. -/
theorem c2_z_polynomial_prefix_products (pd : ProverData F) (cd : CommonData F)
    (w : List (List F)) (beta gamma : F)
    (hsub : pd.subgroup ≠ [])
    (hqdf : cd.quotient_degree_factor ≠ 0)
    (hnp : ceilDiv cd.config.num_routed_wires cd.quotient_degree_factor
      = cd.num_partial_products + 1) :
    ((wires_permutation_partial_products_and_zs w beta gamma pd cd).getD
        cd.num_partial_products []).getD 0 0 = 1
    ∧ (∀ i, i < pd.subgroup.length →
        ((wires_permutation_partial_products_and_zs w beta gamma pd cd).getD
            cd.num_partial_products []).getD i 0
          = ((rowFullProducts pd cd w beta gamma).take i).prod)
    ∧ (∀ i, i + 1 < pd.subgroup.length →
        ((wires_permutation_partial_products_and_zs w beta gamma pd cd).getD
            cd.num_partial_products []).getD (i + 1) 0
          = ((wires_permutation_partial_products_and_zs w beta gamma pd cd).getD
              cd.num_partial_products []).getD i 0
            * (rowFullProducts pd cd w beta gamma).getD i 0) := by
  set np := cd.num_partial_products with hnpdef
  set rows := allQuotientChunkProducts pd cd w beta gamma with hrows
  have hrowlen : ∀ r ∈ rows, r.length = np + 1 := by
    intro r hr
    rw [allQuotientChunkProducts_mem_length pd cd w beta gamma hqdf r hr, hnp]
  have hzlen : ∀ r ∈ zLoopRows np 1 rows, r.length = np + 1 :=
    zLoopRows_mem_length np 1 rows hrowlen
  have hrowsne : rows ≠ [] := by
    rw [hrows]
    intro hcon
    have := allQuotientChunkProducts_length pd cd w beta gamma
    rw [hcon] at this
    exact hsub (List.eq_nil_of_length_eq_zero this.symm)
  have hzne : zLoopRows np 1 rows ≠ [] := by
    intro hcon
    have := zLoopRows_length np 1 rows
    rw [hcon] at this
    exact hrowsne (List.eq_nil_of_length_eq_zero this.symm)
  have hhead : ((zLoopRows np 1 rows).headD []).length = np + 1 := by
    cases hz : zLoopRows np 1 rows with
    | nil => exact absurd hz hzne
    | cons r rest =>
      simp only [List.headD_cons]
      exact hzlen r (by rw [hz]; simp)
  have hZ : (wires_permutation_partial_products_and_zs w beta gamma pd cd).getD
      np [] = (zLoopRows np 1 rows).map (fun v => v.getD np 0) := by
    rw [wires_permutation_partial_products_and_zs, ← hrows, ← hnpdef]
    exact transposeL_getD _ np (by rw [hhead]; omega)
  have hcol : ∀ i, i < pd.subgroup.length →
      ((wires_permutation_partial_products_and_zs w beta gamma pd cd).getD
          np []).getD i 0
        = ((rowFullProducts pd cd w beta gamma).take i).prod := by
    intro i hi
    rw [hZ]
    have hlen : i < rows.length := by
      rw [hrows, allQuotientChunkProducts_length]; exact hi
    rw [zLoopRows_z_column np rows hrowlen 1 i hlen, one_mul]
    rw [rowFullProducts, ← hrows, List.map_take]
  refine ⟨?_, hcol, ?_⟩
  · have h0 : 0 < pd.subgroup.length := List.length_pos.mpr hsub
    rw [hcol 0 h0]
    simp
  · intro i hi
    rw [hcol (i + 1) hi, hcol i (by omega)]
    have hflen : i < (rowFullProducts pd cd w beta gamma).length := by
      rw [rowFullProducts, List.length_map, allQuotientChunkProducts_length]
      omega
    rw [List.prod_take_succ _ i hflen, List.getD_eq_getElem _ _ hflen]

end ClaimC2

section ClaimC3

variable {F : Type} [Field F]

/-- C3: for a row `i` with subgroup point `x` whose denominators are all
nonzero, the builder computes numerators `wire + beta*k_j*x + gamma` and
denominators `wire + beta*sigma + gamma`, inverts the denominators with a
single batch inversion (which then agrees with elementwise inversion),
multiplies each numerator with its paired inverse, and folds consecutive
ratios into chunks of size `quotient_degree_factor` by product. -/
theorem c3_row_partial_products (pd : ProverData F) (cd : CommonData F)
    (w : List (List F)) (beta gamma x : F) (i : Nat)
    (hden : ∀ d ∈ denominatorsRow pd cd w beta gamma i, d ≠ 0) :
    batch_multiplicative_inverse (denominatorsRow pd cd w beta gamma i)
        = (denominatorsRow pd cd w beta gamma i).map (fun d => d⁻¹)
    ∧ quotientValuesRow pd cd w beta gamma x i
        = (List.range cd.config.num_routed_wires).map (fun j =>
            (get_wire w i j + beta * (cd.k_is.getD j 0 * x) + gamma)
              * (get_wire w i j + beta * ((pd.sigmas.getD i []).getD j 0) + gamma)⁻¹)
    ∧ rowChunkProducts pd cd w beta gamma x i
        = (listChunks cd.quotient_degree_factor
            ((List.range cd.config.num_routed_wires).map (fun j =>
              (get_wire w i j + beta * (cd.k_is.getD j 0 * x) + gamma)
                / (get_wire w i j
                    + beta * ((pd.sigmas.getD i []).getD j 0) + gamma)))).map
            List.prod := by
  have h1 := batch_multiplicative_inverse_eq_map_inv
    (denominatorsRow pd cd w beta gamma i) hden
  have h2 : quotientValuesRow pd cd w beta gamma x i
      = (List.range cd.config.num_routed_wires).map (fun j =>
          (get_wire w i j + beta * (cd.k_is.getD j 0 * x) + gamma)
            * (get_wire w i j + beta * ((pd.sigmas.getD i []).getD j 0) + gamma)⁻¹) := by
    rw [quotientValuesRow, h1, numeratorsRow, denominatorsRow, List.map_map]
    exact zipWith_map_same _ _ _ _
  refine ⟨h1, h2, ?_⟩
  rw [rowChunkProducts, quotient_chunk_products, h2]
  simp only [div_eq_mul_inv]

end ClaimC3

section ConcreteInstances

/-- Multiplicative inverse table of the five-element prime field. -/
def finv5 : Fin 5 → Fin 5
  | 0 => 0 | 1 => 1 | 2 => 3 | 3 => 2 | 4 => 4

/-- The five-element prime field, with a kernel-computable inverse. -/
instance field_fin5 : Field (Fin 5) where
  __ := (inferInstance : CommRing (Fin 5))
  inv := finv5
  div := fun a b => a * finv5 b
  div_eq_mul_inv := fun _ _ => rfl
  exists_pair_ne := ⟨0, 1, by decide⟩
  mul_inv_cancel := by decide
  inv_zero := by decide
  nnqsmul := _
  nnqsmul_def := fun _ _ => rfl
  qsmul := _
  qsmul_def := fun _ _ => rfl

/-- A small concrete configuration: three wires, all routed, one challenge
instance, chunk factor two, degree one, rate one. -/
def cfgA : CircuitConfig :=
  { num_wires := 3, num_routed_wires := 3, num_challenges := 1,
    zero_knowledge := false, rate_bits := 1, cap_height := 0 }

def cdA : CommonData (Fin 5) :=
  { config := cfgA, degree_bits := 0, quotient_degree_factor := 2,
    num_partial_products := 1, k_is := [1, 1, 1], num_constants := 0 }

def pdA : ProverData (Fin 5) :=
  { circuit_digest := [], subgroup := [1], sigmas := [[1, 3, 1]],
    constants_sigmas_commitment := ⟨[], []⟩ }

/-- A concrete collaborator environment over `Fin 5` whose witness violates
the copy constraints (the full-row ratio product is not `1`). -/
def envA : Env (Fin 5) :=
  { generateWitness := fun i => i
    getTargets := fun pw => pw
    hashPublicInputs := fun p => p
    fullWitness := fun _ => [[1], [0], [0]]
    myFullWitness := fun _ => [[1], [0], [0]]
    cap := fun polys => polys.flatten
    getLde := fun _ _ _ => [0, 0, 0, 0, 0, 0]
    getN := fun st n => (List.replicate n 1, st)
    getExt := fun st => (2, st)
    evalPoint := fun _ _ _ _ _ _ _ _ _ _ _ _ => [0]
    zhInv := fun _ => 1
    cosetShift := 1
    twoAdicSubgroup := fun _ => [1, 4]
    primRoot := fun _ => 1
    openingSet := fun _ _ _ _ _ _ => []
    proveOpenings := fun _ _ _ => []
    proveOpeningsGpu := fun _ _ _ => []
    fromValuesGpu := fun flat _ deg b s =>
      ⟨listChunks deg flat ++ (if b then s else []),
        (listChunks deg flat ++ (if b then s else [])).flatten⟩
    gpuQuotientCompute := fun _ _ _ _ _ _ _ => [0, 0]
    fromCoeffsGpu := fun qdata _ deg b s =>
      ⟨listChunks deg qdata ++ (if b then s else []),
        (listChunks deg qdata ++ (if b then s else [])).flatten⟩ }

/-- A configuration with chunk factor three (not a power of two): the trim to
`quotient_degree = 3` really inspects the fourth coefficient, and the
accelerated path's `quotient_degree == degree << rate_bits` assertion fails. -/
def cfgB : CircuitConfig :=
  { num_wires := 4, num_routed_wires := 4, num_challenges := 1,
    zero_knowledge := false, rate_bits := 2, cap_height := 0 }

def cdB : CommonData (Fin 5) :=
  { config := cfgB, degree_bits := 0, quotient_degree_factor := 3,
    num_partial_products := 1, k_is := [1, 1, 1, 1], num_constants := 0 }

def pdB : ProverData (Fin 5) :=
  { circuit_digest := [], subgroup := [1], sigmas := [[1, 1, 1, 1]],
    constants_sigmas_commitment := ⟨[], []⟩ }

/-- Environment whose constraint evaluation is constant, so the interpolated
quotient is a constant polynomial and the trim succeeds. -/
def envB : Env (Fin 5) :=
  { envA with
    fullWitness := fun _ => [[0], [0], [0], [0]]
    myFullWitness := fun _ => [[0], [0], [0], [0]]
    twoAdicSubgroup := fun _ => [1, 2, 4, 3]
    evalPoint := fun _ _ _ _ _ _ _ _ _ _ _ _ => [1] }

/-- Environment whose constraint evaluation is the cube of the evaluation
point, so the interpolated quotient is `X^3` and the trim to three
coefficients fails; its device buffer also carries a nonzero value at index
three. -/
def envC : Env (Fin 5) :=
  { envB with
    evalPoint := fun _ sx _ _ _ _ _ _ _ _ _ _ => [sx * sx * sx]
    gpuQuotientCompute := fun _ _ _ _ _ _ _ => [0, 0, 0, 1] }

/-- A configuration violating `quotient_degree_factor < num_routed_wires`. -/
def cdD : CommonData (Fin 5) :=
  { config := cfgB, degree_bits := 0, quotient_degree_factor := 4,
    num_partial_products := 1, k_is := [1, 1, 1, 1], num_constants := 0 }

end ConcreteInstances

def rng0 : Nat → List (List (Fin 5)) := fun _ => []

section ClaimC4

variable {F : Type} [Field F] [DecidableEq F]

/-- C4 counterexample: a witness that violates a copy constraint (the
telescoping total of full-row products differs from `1` under the run's
derived beta and gamma), yet the proving run completes and produces a proof:
with `quotient_degree_factor = 2` (a power of two) the quotient polynomials
have exactly `quotient_degree` coefficients, the trim is vacuous, and no
stage of the run inspects the telescoping identity. -/
theorem c4_counterexample :
    telescopeTotal pdA cdA (pvWitness envA [])
        ((pvBetas envA pdA cdA [] rng0).getD 0 0)
        ((pvGammas envA pdA cdA [] rng0).getD 0 0) ≠ 1
    ∧ (prove envA pdA cdA [] rng0).2.isOk = true := by
  constructor
  · decide
  · decide

/-- C4 (amended): the builder performs no telescoping check and the
orchestrator never inspects the identity; whenever the configuration checks
pass, the quotient polynomials carry exactly `quotient_degree` coefficients
(so the trim is vacuous), and `zeta` avoids the subgroup, the run completes
and returns a proof even for a witness whose telescoping total differs from
`1`. -/
theorem c4_amended_silent_pass (env : Env F) (pd : ProverData F)
    (cd : CommonData F) (inputs : List F) (rng : Nat → List (List F))
    (hviol : telescopeTotal pd cd (pvWitness env inputs)
        ((pvBetas env pd cd inputs rng).getD 0 0)
        ((pvGammas env pd cd inputs rng).getD 0 0) ≠ 1)
    (hcfg : cd.quotient_degree_factor < cd.config.num_routed_wires)
    (hrate : log2_ceil cd.quotient_degree_factor ≤ cd.config.rate_bits)
    (hpts : (env.twoAdicSubgroup
        (cd.degree_bits + log2_ceil cd.quotient_degree_factor)).length
      = cd.quotientDegree)
    (hzeta : expPow2 ((env.getExt (pvSt5 env pd cd inputs rng
        ++ (pvQC env cd rng (quotientChunksNoTrim cd
          (pvQuotientPolys env pd cd inputs rng))).cap)).1) cd.degree_bits
      ≠ 1) :
    (prove env pd cd inputs rng).2.isOk = true := by
  have hlen : ∀ p ∈ pvQuotientPolys env pd cd inputs rng,
      p.length = cd.quotientDegree := by
    intro p hp
    rw [pvQuotientPolys] at hp
    have h2 := computeQuotientPolysB_lengths env cd pd _ _ _ _ _ _ BATCH_SIZE p hp
    rw [h2, hpts]
  have hchunks : pvChunks env pd cd inputs rng
      = .ok (quotientChunksNoTrim cd (pvQuotientPolys env pd cd inputs rng)) := by
    rw [pvChunks]
    exact collectChunks_of_lengths cd _ hlen
  rw [prove, if_neg (not_not_intro hcfg), if_neg (not_not_intro hrate), hchunks]
  simp only [proveAfterQuotient]
  rw [if_neg hzeta]
  rfl

/-- C4 witness: the amended statement holds at the concrete violating
instance. -/
theorem c4_amended_witness :
    (prove envA pdA cdA [] rng0).2.isOk = true :=
  c4_amended_silent_pass envA pdA cdA [] rng0 (by decide) (by decide)
    (by decide) (by decide) (by decide)

end ClaimC4

section ClaimC6

variable {F : Type} [Field F] [DecidableEq F]

/-- C6 counterexample: with `quotient_degree_factor = num_routed_wires` the
run is rejected, but witness generation and the wire commitment have already
happened when the configuration check fires — the check does not run before
polynomial work begins. -/
theorem c6_counterexample :
    (prove envB pdA cdD [] rng0).2 = .error .configCheck
    ∧ PEvent.wiresCommit ∈ (prove envB pdA cdD [] rng0).1
    ∧ PEvent.genWitness ∈ (prove envB pdA cdD [] rng0).1 := by
  refine ⟨by decide, by decide, by decide⟩

/-- C6 (amended): a configuration with
`quotient_degree_factor >= num_routed_wires` is rejected by the assertion,
which fires after witness resolution and the wire commitment but before any
partial-product or quotient work, on both paths (on the accelerated path,
provided its earlier wire-length assertion passes). -/
theorem c6_amended_config_check (env : Env F) (pd : ProverData F)
    (cd : CommonData F) (inputs : List F) (rng : Nat → List (List F))
    (h : ¬ (cd.quotient_degree_factor < cd.config.num_routed_wires)) :
    prove env pd cd inputs rng
        = ([.genWitness, .wiresCommit], .error .configCheck)
    ∧ ((mpFlat env inputs).length % cd.degree = 0 →
        my_prove env pd cd inputs rng
          = ([.genWitness, .wiresCommit], .error .configCheck)) := by
  constructor
  · rw [prove, if_pos h]
  · intro hlen
    rw [my_prove, if_neg (not_not_intro hlen), if_pos h]

/-- C6 witness: the amended statement holds at the concrete
`quotient_degree_factor = num_routed_wires = 4` instance. -/
theorem c6_amended_witness :
    prove envB pdB cdD [] rng0
        = ([.genWitness, .wiresCommit], .error .configCheck)
    ∧ my_prove envB pdB cdD [] rng0
        = ([.genWitness, .wiresCommit], .error .configCheck) :=
  ⟨(c6_amended_config_check envB pdB cdD [] rng0 (by decide)).1,
   (c6_amended_config_check envB pdB cdD [] rng0 (by decide)).2 (by decide)⟩

end ClaimC6

section ClaimC9

variable {F : Type} [Field F]

/-- The batch layout asserted by the spec sentence for C9, spelled from its
words: each challenge instance contributes a contiguous block holding its `Z`
polynomial first and its partial-product polynomials after it. -/
def perInstanceZsBlocks (pps : List (List (List F))) : List (List F) :=
  (pps.map (fun inst => inst.getLastD [] :: inst.dropLast)).flatten

/-- Concrete two-instance batch: instance `0` holds partial product `[1]` and
`Z` polynomial `[2]`; instance `1` holds `[3]` and `Z` polynomial `[4]`. -/
def dataC9 : List (List (List (Fin 5))) := [[[1], [2]], [[3], [4]]]

/-- C9 counterexample: with two challenge instances the committed batch is
not the per-instance interleaving `[Z_0, pp_0, Z_1, pp_1]` the claim
describes — the code places both `Z` polynomials at the front of the whole
batch. -/
theorem c9_counterexample :
    reorderZs dataC9 ≠ perInstanceZsBlocks dataC9
    ∧ reorderZs dataC9 = [[2], [4], [1], [3]]
    ∧ perInstanceZsBlocks dataC9 = [[2], [1], [4], [3]] := by
  refine ⟨by decide, by decide, by decide⟩

/-- C9 (amended): in the committed batch all `Z` polynomials come first, one
per challenge instance in instance order (entry `i` of the batch is the `Z`
polynomial — the last builder output — of instance `i`), followed by the
concatenation of every instance's partial-product polynomials grouped by
instance. -/
theorem c9_amended_zs_front (pps : List (List (List F))) :
    (reorderZs pps).take pps.length = pps.map (fun inst => inst.getLastD [])
    ∧ (reorderZs pps).drop pps.length
        = (pps.map (fun inst => inst.dropLast)).flatten
    ∧ ∀ i, i < pps.length →
        (reorderZs pps).getD i [] = (pps.getD i []).getLastD [] := by
  have h1 : (pps.map (fun inst => inst.getLastD [])).length = pps.length :=
    List.length_map _ _
  refine ⟨?_, ?_, ?_⟩
  · rw [reorderZs, ← h1, List.take_left]
  · rw [reorderZs, ← h1, List.drop_left]
  · intro i hi
    have hi1 : i < (pps.map (fun inst => inst.getLastD [])).length := by
      rw [h1]; exact hi
    rw [reorderZs, List.getD_append _ _ _ _ hi1, List.getD_eq_getElem _ _ hi1,
      List.getElem_map, List.getD_eq_getElem pps _ hi]

/-- C9 witness: the amended layout at the concrete two-instance batch. -/
theorem c9_amended_witness :
    (reorderZs dataC9).take dataC9.length
        = dataC9.map (fun inst => inst.getLastD [])
    ∧ (reorderZs dataC9).getD 1 [] = (dataC9.getD 1 []).getLastD [] :=
  ⟨(c9_amended_zs_front dataC9).1,
   (c9_amended_zs_front dataC9).2.2 1 (by decide)⟩

end ClaimC9

section ClaimC7

variable {F : Type} [Field F] [DecidableEq F]

/-- C7: after the quotient round (quotient cap observed, `zeta` drawn), both
tails reject a `zeta` whose `2^degree_bits`-th power is the identity with the
fatal subgroup error and return no proof; otherwise both proceed to the
opening round and assemble a proof. -/
theorem c7_zeta_subgroup_check (env : Env F) (cd : CommonData F)
    (csC wC zC qC : Commitment F) (pubis st5 : List F) :
    (expPow2 ((env.getExt (st5 ++ qC.cap)).1) cd.degree_bits = 1 →
        proveAfterQuotient env cd csC wC zC qC pubis st5
            = ([], .error .zetaInSubgroup)
        ∧ myProveAfterQuotient env cd csC wC zC qC pubis st5
            = ([], .error .zetaInSubgroup))
    ∧ (expPow2 ((env.getExt (st5 ++ qC.cap)).1) cd.degree_bits ≠ 1 →
        (proveAfterQuotient env cd csC wC zC qC pubis st5).1
            = [.openingSetBuilt, .openingProofBuilt]
        ∧ (proveAfterQuotient env cd csC wC zC qC pubis st5).2.isOk = true
        ∧ (myProveAfterQuotient env cd csC wC zC qC pubis st5).1
            = [.openingSetBuilt, .openingProofBuilt]
        ∧ (myProveAfterQuotient env cd csC wC zC qC pubis st5).2.isOk = true) := by
  constructor
  · intro h
    rw [proveAfterQuotient, myProveAfterQuotient]
    rw [if_pos h, if_pos h]
    exact ⟨rfl, rfl⟩
  · intro h
    rw [proveAfterQuotient, myProveAfterQuotient]
    rw [if_neg h, if_neg h]
    exact ⟨rfl, rfl, rfl, rfl⟩

/-- Environment drawing the extension challenge `1`, which lies in every
evaluation subgroup. -/
def envB1 : Env (Fin 5) := { envB with getExt := fun st => (1, st) }

/-- C7 witness: the check at concrete inputs — a degenerate `zeta = 1` is
rejected on both paths, and the nondegenerate `zeta = 2` proceeds to the
opening round on both paths. -/
theorem c7_zeta_witness :
    (proveAfterQuotient envB1 cdB ⟨[], []⟩ ⟨[], []⟩ ⟨[], []⟩ ⟨[], []⟩ [] []
        = ([], .error .zetaInSubgroup))
    ∧ ((proveAfterQuotient envB cdB ⟨[], []⟩ ⟨[], []⟩ ⟨[], []⟩ ⟨[], []⟩ [] []).2.isOk
        = true)
    ∧ ((myProveAfterQuotient envB cdB ⟨[], []⟩ ⟨[], []⟩ ⟨[], []⟩ ⟨[], []⟩ [] []).2.isOk
        = true) :=
  ⟨((c7_zeta_subgroup_check envB1 cdB ⟨[], []⟩ ⟨[], []⟩ ⟨[], []⟩ ⟨[], []⟩ [] []).1
      (by decide)).1,
   ((c7_zeta_subgroup_check envB cdB ⟨[], []⟩ ⟨[], []⟩ ⟨[], []⟩ ⟨[], []⟩ [] []).2
      (by decide)).2.1,
   ((c7_zeta_subgroup_check envB cdB ⟨[], []⟩ ⟨[], []⟩ ⟨[], []⟩ ⟨[], []⟩ [] []).2
      (by decide)).2.2.2⟩

end ClaimC7

section ClaimC5

variable {F : Type} [Field F] [DecidableEq F]

/-- The `c`-th per-instance region of the device quotient buffer committed by
the accelerated path: `values_num_per_extpoly = degree * 2^rate_bits`
coefficients per quotient polynomial (`prover.rs` lines 450-452, 493-494,
627-640). -/
def mpQPoly (env : Env F) (pd : ProverData F) (cd : CommonData F)
    (inputs : List F) (rng : Nat → List (List F)) (c : Nat) : List F :=
  ((mpQData env pd cd inputs rng).drop
      (c * (cd.degree * 2 ^ cd.config.rate_bits))).take
    (cd.degree * 2 ^ cd.config.rate_bits)

/-- C5: a nonzero value beyond the expected quotient coefficient count makes
the run abort fatally before any quotient commitment, on both paths.  On the
non-accelerated path the trim of `prover.rs` lines 161-174 fails; on the
accelerated path (which performs no trim) a coefficient index at or beyond
`quotient_degree` can exist in the device buffer regions only when
`quotient_degree` is smaller than the buffer's per-polynomial size
`degree * 2^rate_bits`, in which case the line-611 assertion aborts the run
before the quotient commitment. -/
theorem c5_trim_aborts_run (env : Env F) (pd : ProverData F)
    (cd : CommonData F) (inputs : List F) (rng : Nat → List (List F)) :
    ((∃ p ∈ pvQuotientPolys env pd cd inputs rng,
        ∃ k, cd.quotientDegree ≤ k ∧ p.getD k 0 ≠ 0) →
      (prove env pd cd inputs rng).2.isOk = false
      ∧ PEvent.quotientCommit ∉ (prove env pd cd inputs rng).1)
    ∧ ((∃ c k, cd.quotientDegree ≤ k
          ∧ (mpQPoly env pd cd inputs rng c).getD k 0 ≠ 0) →
      (my_prove env pd cd inputs rng).2.isOk = false
      ∧ PEvent.quotientCommit ∉ (my_prove env pd cd inputs rng).1) := by
  constructor
  · rintro ⟨p, hp, k, hk, hnz⟩
    rw [prove]
    by_cases h1 : ¬ (cd.quotient_degree_factor < cd.config.num_routed_wires)
    · rw [if_pos h1]
      exact ⟨rfl, by simp⟩
    · rw [if_neg h1]
      by_cases h2 : ¬ (log2_ceil cd.quotient_degree_factor
          ≤ cd.config.rate_bits)
      · rw [if_pos h2]
        exact ⟨rfl, by simp⟩
      · rw [if_neg h2]
        have herr : pvChunks env pd cd inputs rng = .error .trimFailed := by
          rw [pvChunks]
          exact collectChunks_error cd _
            ⟨p, hp, .trimFailed, trimAndChunk_error_of_tail cd p k hk hnz⟩
        rw [herr]
        exact ⟨rfl, by simp⟩
  · rintro ⟨c, k, hk, hnz⟩
    have hlt : k < cd.degree * 2 ^ cd.config.rate_bits := by
      by_contra hcon
      push_neg at hcon
      apply hnz
      apply List.getD_eq_default
      calc (mpQPoly env pd cd inputs rng c).length
          ≤ cd.degree * 2 ^ cd.config.rate_bits := by
            rw [mpQPoly]; exact List.length_take_le _ _
        _ ≤ k := hcon
    have hne : ¬ (cd.quotientDegree = cd.degree * 2 ^ cd.config.rate_bits) := by
      omega
    rw [my_prove]
    by_cases h1 : ¬ ((mpFlat env inputs).length % cd.degree = 0)
    · rw [if_pos h1]
      exact ⟨rfl, by simp⟩
    · rw [if_neg h1]
      by_cases h2 : ¬ (cd.quotient_degree_factor
          < cd.config.num_routed_wires)
      · rw [if_pos h2]
        exact ⟨rfl, by simp⟩
      · rw [if_neg h2, if_pos hne]
        exact ⟨rfl, by simp⟩

/-- C5 witness: with the constraint evaluation `X^3` and chunk factor three,
the quotient polynomial is `[0,0,0,1]`, the coefficient at index three (at
the expected count) is nonzero, and the non-accelerated run aborts; the
device buffer `[0,0,0,1]` likewise has a nonzero fourth coefficient and the
accelerated run aborts; neither run reaches a quotient commitment. -/
theorem c5_trim_witness :
    ((prove envC pdB cdB [] rng0).2.isOk = false
      ∧ PEvent.quotientCommit ∉ (prove envC pdB cdB [] rng0).1)
    ∧ ((my_prove envC pdB cdB [] rng0).2.isOk = false
      ∧ PEvent.quotientCommit ∉ (my_prove envC pdB cdB [] rng0).1) :=
  ⟨(c5_trim_aborts_run envC pdB cdB [] rng0).1
      ⟨[0, 0, 0, 1], by decide, 3, by decide, by decide⟩,
   (c5_trim_aborts_run envC pdB cdB [] rng0).2
      ⟨0, 3, by decide, by decide⟩⟩

end ClaimC5

section ClaimC8

variable {F : Type} [Field F] [DecidableEq F]

/-- C8: the quotient coefficients are independent of the batch size — any two
positive batch sizes produce identical coefficient lists, because the batch
loop reconstructs global indices from the batch number and carries no state
across batch boundaries. -/
theorem c8_batch_invariance (env : Env F) (cd : CommonData F)
    (pd : ProverData F) (piHash : List F) (wC zC : Commitment F)
    (betas gammas alphas : List F) (b1 b2 : Nat) (hb1 : b1 ≠ 0)
    (hb2 : b2 ≠ 0) :
    computeQuotientPolysB env cd pd piHash wC zC betas gammas alphas b1
      = computeQuotientPolysB env cd pd piHash wC zC betas gammas alphas b2 := by
  rw [computeQuotientPolysB, computeQuotientPolysB]
  rw [computeQuotientValuesB_eq_pointwise env cd pd piHash wC zC betas gammas
      alphas b1 hb1,
    ← computeQuotientValuesB_eq_pointwise env cd pd piHash wC zC betas gammas
      alphas b2 hb2]

/-- C8 witness: at a concrete instance, batch sizes 1 and 1000 produce the
same coefficients as the reference batch size 32. -/
theorem c8_batch_witness :
    computeQuotientPolysB envB cdB pdB [] ⟨[], []⟩ ⟨[], []⟩ [1] [1] [1] 1
        = computeQuotientPolysB envB cdB pdB [] ⟨[], []⟩ ⟨[], []⟩ [1] [1] [1]
          BATCH_SIZE
    ∧ computeQuotientPolysB envB cdB pdB [] ⟨[], []⟩ ⟨[], []⟩ [1] [1] [1] 1000
        = computeQuotientPolysB envB cdB pdB [] ⟨[], []⟩ ⟨[], []⟩ [1] [1] [1]
          BATCH_SIZE :=
  ⟨c8_batch_invariance envB cdB pdB [] ⟨[], []⟩ ⟨[], []⟩ [1] [1] [1] 1
      BATCH_SIZE (by decide) (by decide),
   c8_batch_invariance envB cdB pdB [] ⟨[], []⟩ ⟨[], []⟩ [1] [1] [1] 1000
      BATCH_SIZE (by decide) (by decide)⟩

end ClaimC8

section ClaimC10

variable {F : Type} [Field F] [DecidableEq F]

/-- C10: with zero-knowledge disabled, `prove` is deterministic and draws on
no external randomness: the challenger starts from the fixed
`Challenger::new()` state and the only entropy sink — commitment blinding
salt — is disabled, so two runs with identical prover data, common data, and
inputs but different randomness streams draw identical `betas`, `gammas`,
`alphas` and produce identical caps and an identical proof. -/
theorem c10_prove_deterministic (env : Env F) (pd : ProverData F)
    (cd : CommonData F) (inputs : List F) (rng1 rng2 : Nat → List (List F))
    (h : cd.config.zero_knowledge = false) :
    pvBetas env pd cd inputs rng1 = pvBetas env pd cd inputs rng2
    ∧ pvGammas env pd cd inputs rng1 = pvGammas env pd cd inputs rng2
    ∧ pvAlphas env pd cd inputs rng1 = pvAlphas env pd cd inputs rng2
    ∧ prove env pd cd inputs rng1 = prove env pd cd inputs rng2 := by
  simp only [prove, pvChunks, pvQuotientPolys, pvAlphas, pvSt5, pvSt4, pvZsC,
    pvZsPP, pvPP, pvGammas, pvSt3, pvSt2, pvBetas, pvSt1, pvWiresC, pvQC,
    fromValues, fromCoeffs, pvPublicInputs, pvPIHash, pvWitness, pvPW, h,
    Bool.false_and, Bool.false_eq_true, if_false, List.append_nil]
  exact ⟨trivial, trivial, trivial, trivial⟩

/-- C10 witness: two runs with visibly different randomness streams coincide
at the concrete instance. -/
theorem c10_deterministic_witness :
    prove envA pdA cdA [] (fun _ => [[1]])
      = prove envA pdA cdA [] (fun _ => [[2]]) :=
  (c10_prove_deterministic envA pdA cdA [] (fun _ => [[1]]) (fun _ => [[2]])
    (by decide)).2.2.2

end ClaimC10

section ClaimWitnessesBuilder

/-- Two-row prover data for exercising the `Z` recurrence. -/
def pdC2 : ProverData (Fin 5) :=
  { circuit_digest := [], subgroup := [1, 4], sigmas := [[1, 3, 1], [2, 4, 1]],
    constants_sigmas_commitment := ⟨[], []⟩ }

/-- Two-row witness matrix (three wire columns). -/
def wC2 : List (List (Fin 5)) := [[1, 2], [0, 3], [0, 1]]

/-- C2 witness: the `Z` polynomial built at a concrete two-row instance has
`Z(first point) = 1`, slot `1` the product of row `0`, and satisfies the
slotwise recurrence. -/
theorem c2_z_witness :
    ((wires_permutation_partial_products_and_zs wC2 (1 : Fin 5) 1 pdC2
        cdA).getD cdA.num_partial_products []).getD 0 0 = 1
    ∧ ((wires_permutation_partial_products_and_zs wC2 (1 : Fin 5) 1 pdC2
        cdA).getD cdA.num_partial_products []).getD 1 0
      = ((rowFullProducts pdC2 cdA wC2 1 1).take 1).prod :=
  ⟨(c2_z_polynomial_prefix_products pdC2 cdA wC2 1 1 (by decide) (by decide)
      (by decide)).1,
   (c2_z_polynomial_prefix_products pdC2 cdA wC2 1 1 (by decide) (by decide)
      (by decide)).2.1 1 (by decide)⟩

/-- C3 witness: at the concrete row all denominators are nonzero and the
batch inversion agrees with elementwise inversion. -/
theorem c3_row_witness :
    (∀ d ∈ denominatorsRow pdA cdA [[1], [0], [0]] 1 1 0, d ≠ 0)
    ∧ batch_multiplicative_inverse
        (denominatorsRow pdA cdA [[1], [0], [0]] 1 1 0)
      = (denominatorsRow pdA cdA [[1], [0], [0]] 1 1 0).map (fun d => d⁻¹) :=
  ⟨by decide,
   (c3_row_partial_products pdA cdA [[1], [0], [0]] 1 1 1 0 (by decide)).1⟩

end ClaimWitnessesBuilder

section ClaimC1Counterexample

/-- C1 counterexample: with `quotient_degree_factor = 3` and `rate_bits = 2`
(`quotient_degree = 3`, `degree << rate_bits = 4`) the non-accelerated path
completes and returns a proof while `my_prove` aborts at its
`quotient_degree == degree << rate_bits` assertion — the two paths do not
produce identical results on identical inputs. -/
theorem c1_counterexample :
    (my_prove envB pdB cdB [] rng0).2 ≠ (prove envB pdB cdB [] rng0).2
    ∧ (prove envB pdB cdB [] rng0).2.isOk = true
    ∧ (my_prove envB pdB cdB [] rng0).2 = .error .quotientDegreeCheck := by
  refine ⟨by decide, by decide, by decide⟩

end ClaimC1Counterexample

section C1Helpers

variable {F : Type} [Field F] [DecidableEq F]

theorem getLastD_mem {α : Type} (l : List α) (d : α) (h : l ≠ []) :
    l.getLastD d ∈ l := by
  induction l with
  | nil => exact absurd rfl h
  | cons x xs ih =>
    cases xs with
    | nil => simp
    | cons y ys =>
      rw [List.getLastD_cons]
      exact List.mem_cons_of_mem _ (ih (by simp))

/-- Every polynomial produced by the builder has one value per subgroup
row. -/
theorem builder_mem_length (w : List (List F)) (beta gamma : F)
    (pd : ProverData F) (cd : CommonData F) :
    ∀ q ∈ wires_permutation_partial_products_and_zs w beta gamma pd cd,
      q.length = pd.subgroup.length := by
  intro q hq
  rw [wires_permutation_partial_products_and_zs] at hq
  rw [transposeL_mem_length _ q hq, zLoopRows_length,
    allQuotientChunkProducts_length]

theorem find?_range'_eq (p : Nat → Bool) :
    ∀ (m s k : Nat), s ≤ k → k < s + m → p k = true →
      (∀ j, s ≤ j → j < k → p j = false) →
      (List.range' s m).find? p = some k := by
  intro m
  induction m with
  | zero => intro s k h1 h2 _ _; omega
  | succ m ih =>
    intro s k h1 h2 hk hmin
    rw [List.range'_succ]
    by_cases hs : s = k
    · subst hs
      exact List.find?_cons_of_pos _ hk
    · rw [List.find?_cons_of_neg _ (by rw [hmin s (Nat.le_refl s) (by omega)]; simp)]
      exact ih (s + 1) k (by omega) (by omega) hk
        (fun j hj1 hj2 => hmin j (by omega) hj2)

theorem log2_ceil_pow (k : Nat) : log2_ceil (2 ^ k) = k := by
  rw [log2_ceil, List.range_eq_range']
  rw [find?_range'_eq _ (2 ^ k + 1) 0 k (Nat.zero_le k)
    (by have := Nat.lt_two_pow k; omega)
    (by simp)
    (fun j _ hj => by
      have hlt : 2 ^ j < 2 ^ k := Nat.pow_lt_pow_right (by omega) hj
      simp
      omega)]
  rfl

/-- The builder never returns an empty polynomial list (given a nonempty
subgroup, a positive chunk factor and at least one routed wire). -/
theorem builder_ne_nil (w : List (List F)) (beta gamma : F)
    (pd : ProverData F) (cd : CommonData F)
    (hsub : pd.subgroup ≠ [])
    (hqdf : cd.quotient_degree_factor ≠ 0)
    (hnr : cd.config.num_routed_wires ≠ 0) :
    wires_permutation_partial_products_and_zs w beta gamma pd cd ≠ [] := by
  rw [wires_permutation_partial_products_and_zs]
  intro hcon
  have hlen := transposeL_length
    (zLoopRows cd.num_partial_products 1 (allQuotientChunkProducts pd cd w beta gamma))
  rw [hcon] at hlen
  have hrowsne : allQuotientChunkProducts pd cd w beta gamma ≠ [] := by
    intro hcon2
    have h2 := allQuotientChunkProducts_length pd cd w beta gamma
    rw [hcon2] at h2
    exact hsub (List.eq_nil_of_length_eq_zero h2.symm)
  obtain ⟨r0, rest, hr⟩ := List.exists_cons_of_ne_nil hrowsne
  rw [hr, zLoopRows_cons] at hlen
  simp only [List.headD_cons, List.length_nil] at hlen
  have hr0 : r0.length = ceilDiv cd.config.num_routed_wires cd.quotient_degree_factor :=
    allQuotientChunkProducts_mem_length pd cd w beta gamma hqdf r0 (by rw [hr]; simp)
  have hpos : 0 < ceilDiv cd.config.num_routed_wires cd.quotient_degree_factor := by
    rw [ceilDiv]
    have h4 : cd.quotient_degree_factor
        ≤ cd.config.num_routed_wires + cd.quotient_degree_factor - 1 := by omega
    exact Nat.div_pos h4 (Nat.pos_of_ne_zero hqdf)
  rw [List.length_set, partial_products_and_z_gx_length, hr0] at hlen
  omega

/-- Every polynomial of the reordered batch has one value per subgroup
row. -/
theorem reorderZs_mem_length (w : List (List F)) (betas gammas : List F)
    (pd : ProverData F) (cd : CommonData F)
    (hsub : pd.subgroup ≠ [])
    (hqdf : cd.quotient_degree_factor ≠ 0)
    (hnr : cd.config.num_routed_wires ≠ 0) :
    ∀ q ∈ reorderZs (all_wires_permutation_partial_products w betas gammas pd cd),
      q.length = pd.subgroup.length := by
  intro q hq
  rw [reorderZs] at hq
  rcases List.mem_append.mp hq with hq | hq
  · simp only [List.mem_map] at hq
    obtain ⟨inst, hinst, hq2⟩ := hq
    simp only [all_wires_permutation_partial_products, List.mem_map] at hinst
    obtain ⟨i, _, hinst2⟩ := hinst
    subst hinst2
    rw [← hq2]
    exact builder_mem_length _ _ _ pd cd _
      (getLastD_mem _ _ (builder_ne_nil _ _ _ pd cd hsub hqdf hnr))
  · simp only [List.mem_flatten, List.mem_map] at hq
    obtain ⟨block, ⟨inst, hinst, hblock⟩, hq2⟩ := hq
    simp only [all_wires_permutation_partial_products, List.mem_map] at hinst
    obtain ⟨i, _, hinst2⟩ := hinst
    subst hinst2
    rw [← hblock] at hq2
    exact builder_mem_length _ _ _ pd cd q (List.dropLast_subset _ hq2)

end C1Helpers

section ClaimC1

variable {F : Type} [Field F] [DecidableEq F]

/-- The GPU tail equals the CPU tail when the GPU opening-proof collaborator
meets the output-equivalence contract. -/
theorem myProveAfterQuotient_eq (env : Env F)
    (hop : env.proveOpeningsGpu = env.proveOpenings) (cd : CommonData F)
    (csC wC zC qC : Commitment F) (pubis st5 : List F) :
    myProveAfterQuotient env cd csC wC zC qC pubis st5
      = proveAfterQuotient env cd csC wC zC qC pubis st5 := by
  simp only [myProveAfterQuotient, proveAfterQuotient, hop]

/-- C1 (amended): provided the configuration satisfies the accelerated
path's `quotient_degree = degree * 2^rate_bits` restriction (together with
the shared configuration checks), and provided the collaborators outside
`src/` meet the section-4.6 output-equivalence contract stage by stage
(`my_full_witness` agrees with `full_witness`, the GPU commitment oracle
agrees with the CPU oracle on the reshaped column data, the GPU quotient
computation-and-commitment agrees with the CPU quotient stage, and the GPU
opening proof agrees with the CPU one), the two orchestrators produce
identical wire and Z/partial-product commitments and an identical final
outcome — the same proof, or the same fatal error. -/
theorem c1_amended_output_equivalence (env : Env F) (pd : ProverData F)
    (cd : CommonData F) (inputs : List F) (rng : Nat → List (List F))
    (hgw : env.myFullWitness = env.fullWitness)
    (hcols : ∀ c ∈ pvWitness env inputs, c.length = cd.degree)
    (hfv : ∀ (flat : List F) (cnt : Nat) (bl : Bool) (s : List (List F)),
      env.fromValuesGpu flat cnt cd.degree bl s
        = fromValues env (listChunks cd.degree flat) bl s)
    (hqc : mpQC env pd cd inputs rng
      = pvQC env cd rng (quotientChunksNoTrim cd
          (pvQuotientPolys env pd cd inputs rng)))
    (hop : env.proveOpeningsGpu = env.proveOpenings)
    (hq : cd.quotientDegree = cd.degree * 2 ^ cd.config.rate_bits)
    (hpts : (env.twoAdicSubgroup
        (cd.degree_bits + log2_ceil cd.quotient_degree_factor)).length
      = cd.quotientDegree)
    (hcfg : cd.quotient_degree_factor < cd.config.num_routed_wires)
    (hsub : pd.subgroup.length = cd.degree) :
    mpWiresC env cd inputs rng = pvWiresC env cd inputs rng
    ∧ mpZsC env pd cd inputs rng = pvZsC env pd cd inputs rng
    ∧ (my_prove env pd cd inputs rng).2 = (prove env pd cd inputs rng).2 := by
  have hdegpos : 0 < cd.degree := by
    rw [CommonData.degree]
    exact pow_pos (by omega) _
  have hdeg : cd.degree ≠ 0 := by omega
  have hqdf2 : cd.quotient_degree_factor = 2 ^ cd.config.rate_bits := by
    have h1 := hq
    rw [CommonData.quotientDegree] at h1
    have h2 : cd.quotient_degree_factor * cd.degree
        = 2 ^ cd.config.rate_bits * cd.degree := by rw [h1]; ring
    exact Nat.eq_of_mul_eq_mul_right hdegpos h2
  have hqdfne : cd.quotient_degree_factor ≠ 0 := by
    rw [hqdf2]
    have h3 : (0:Nat) < 2 ^ cd.config.rate_bits := pow_pos (by omega) _
    omega
  have hrate : log2_ceil cd.quotient_degree_factor ≤ cd.config.rate_bits := by
    rw [hqdf2, log2_ceil_pow]
  have hnr : cd.config.num_routed_wires ≠ 0 := by omega
  have hsubne : pd.subgroup ≠ [] := by
    intro hcon
    rw [hcon] at hsub
    simp at hsub
    exact hdeg hsub.symm
  have hwit : mpWitness env inputs = pvWitness env inputs := by
    rw [mpWitness, pvWitness, hgw]
  have hflat : mpFlat env inputs = (pvWitness env inputs).flatten := by
    rw [mpFlat, hwit]
  have hwires : mpWiresC env cd inputs rng = pvWiresC env cd inputs rng := by
    rw [mpWiresC, hfv, hflat, listChunks_flatten_uniform hdeg _ hcols, pvWiresC]
  have hst1 : mpSt1 env pd cd inputs rng = pvSt1 env pd cd inputs rng := by
    rw [mpSt1, pvSt1, hwires]
  have hbetas : mpBetas env pd cd inputs rng = pvBetas env pd cd inputs rng := by
    rw [mpBetas, pvBetas, hst1]
  have hst2 : mpSt2 env pd cd inputs rng = pvSt2 env pd cd inputs rng := by
    rw [mpSt2, pvSt2, hst1]
  have hgammas : mpGammas env pd cd inputs rng = pvGammas env pd cd inputs rng := by
    rw [mpGammas, pvGammas, hst2]
  have hst3 : mpSt3 env pd cd inputs rng = pvSt3 env pd cd inputs rng := by
    rw [mpSt3, pvSt3, hst2]
  have hpp : mpPP env pd cd inputs rng = pvPP env pd cd inputs rng := by
    rw [mpPP, pvPP, hwit, hbetas, hgammas]
  have hzspp : mpZsPP env pd cd inputs rng = pvZsPP env pd cd inputs rng := by
    rw [mpZsPP, pvZsPP, hpp]
  have hzlen : ∀ q ∈ pvZsPP env pd cd inputs rng, q.length = cd.degree := by
    intro q hq2
    rw [pvZsPP, pvPP] at hq2
    have h3 := reorderZs_mem_length (pvWitness env inputs)
      (pvBetas env pd cd inputs rng) (pvGammas env pd cd inputs rng) pd cd
      hsubne hqdfne hnr q hq2
    rw [h3, hsub]
  have hzflat : mpZsFlat env pd cd inputs rng
      = (pvZsPP env pd cd inputs rng).flatten := by
    rw [mpZsFlat, hzspp]
  have hzs : mpZsC env pd cd inputs rng = pvZsC env pd cd inputs rng := by
    rw [mpZsC, hfv, hzflat, listChunks_flatten_uniform hdeg _ hzlen, pvZsC]
  have hst4 : mpSt4 env pd cd inputs rng = pvSt4 env pd cd inputs rng := by
    rw [mpSt4, pvSt4, hst3, hzs]
  have hst5 : mpSt5 env pd cd inputs rng = pvSt5 env pd cd inputs rng := by
    rw [mpSt5, pvSt5, hst4]
  have hlens : ∀ p ∈ pvQuotientPolys env pd cd inputs rng,
      p.length = cd.quotientDegree := by
    intro p hp
    rw [pvQuotientPolys] at hp
    have h2 := computeQuotientPolysB_lengths env cd pd _ _ _ _ _ _ BATCH_SIZE p hp
    rw [h2, hpts]
  have hchunks : pvChunks env pd cd inputs rng
      = .ok (quotientChunksNoTrim cd (pvQuotientPolys env pd cd inputs rng)) := by
    rw [pvChunks]
    exact collectChunks_of_lengths cd _ hlens
  have hmodz : (mpFlat env inputs).length % cd.degree = 0 := by
    rw [hflat, flatten_uniform_length _ hcols]
    exact Nat.mul_mod_left _ _
  refine ⟨hwires, hzs, ?_⟩
  rw [prove, my_prove]
  rw [if_neg (not_not_intro hmodz), if_neg (not_not_intro hcfg),
    if_neg (not_not_intro hq), if_neg (not_not_intro hcfg),
    if_neg (not_not_intro hrate), hchunks]
  simp only [hwires, hzs, hqc, hst5, myProveAfterQuotient_eq env hop]

end ClaimC1


/-- C1 witness: the amended equivalence at a concrete instance whose
collaborators honour the per-stage contract and whose configuration satisfies
the accelerated path's restriction. -/
theorem c1_amended_witness :
    mpWiresC envA cdA [] rng0 = pvWiresC envA cdA [] rng0
    ∧ mpZsC envA pdA cdA [] rng0 = pvZsC envA pdA cdA [] rng0
    ∧ (my_prove envA pdA cdA [] rng0).2 = (prove envA pdA cdA [] rng0).2 :=
  c1_amended_output_equivalence envA pdA cdA [] rng0 rfl (by decide)
    (fun _ _ _ _ => rfl) (by decide) rfl (by decide) (by decide) (by decide)
    (by decide)
